import Mathlib

/-
Shallow embedding of the Go rules engine in src/src/game.rs
(repository kelleyvanevert/druidgo).

Modelling conventions:
- Rust `i32` coordinates are modelled as `Int`; the `size as i32` cast in
  `Pos::valid` / `Pos::neighbors` is modelled by `i32cast`, and the `usize`
  arithmetic of `Pos::index` wraps modulo 2^64 exactly as the release-mode
  Rust does.
- `EnumMap<Stone, usize>` is the two-field structure `Captures`.
- The history `Vec<GameState>` pushes and pops at its tail; it is modelled
  as a list whose HEAD is the most recent snapshot, so Rust's
  `history.get(len - 2)` is `history[1]?` here.
- The `while let Some(p) = todo.pop()` work list of `is_surrounded` pops at
  the Vec tail; it is modelled as a list whose head is the top of the
  stack.  The loop is given the explicit fuel `size * size`; the theorem
  for claim C10 proves this fuel is never exhausted.
-/

namespace Druidgo

/-- Rust's `as i32` cast applied to a `usize` value: truncate to 32 bits and
reinterpret as a signed integer. -/
def i32cast (n : Nat) : Int :=
  let r := n % 4294967296
  if r < 2147483648 then (r : Int) else (r : Int) - 4294967296

/-- Rust `Pos(pub i32, pub i32)`: a column/row coordinate pair. -/
structure Pos where
  x : Int
  y : Int
deriving DecidableEq

/-- Rust `Pos::valid`: both coordinates lie in `[0, size as i32)`. -/
def Pos.valid (p : Pos) (size : Nat) : Bool :=
  decide (0 ≤ p.x ∧ p.x < i32cast size ∧ 0 ≤ p.y ∧ p.y < i32cast size)

/-- Rust `Pos::neighbors`: the four orthogonal offsets, filtered to valid ones,
in the source order left, right, up, down. -/
def Pos.neighbors (p : Pos) (size : Nat) : List Pos :=
  [Pos.mk (p.x - 1) p.y, Pos.mk (p.x + 1) p.y,
   Pos.mk p.x (p.y - 1), Pos.mk p.x (p.y + 1)].filter (fun q => q.valid size)

/-- Rust `Pos::and_valid`. -/
def Pos.and_valid (p : Pos) (size : Nat) : Option Pos :=
  if p.valid size then some p else none

/-- Rust `Pos::index`: `(y as usize) * size + (x as usize)` for a valid position
(wrapping `usize` arithmetic), `None` for an invalid one. -/
def Pos.index (p : Pos) (size : Nat) : Option Nat :=
  if p.valid size then
    some ((p.y.toNat * size + p.x.toNat) % 18446744073709551616)
  else
    none

/-- Rust `enum Stone { White, Black }`. -/
inductive Stone
  | White
  | Black
deriving DecidableEq

/-- Rust `impl Neg for Stone`. -/
def Stone.neg : Stone → Stone
  | .White => .Black
  | .Black => .White

instance : Neg Stone := ⟨Stone.neg⟩

/-- Rust `EnumMap<Stone, usize>`: one capture counter per stone color. -/
structure Captures where
  white : Nat
  black : Nat
deriving DecidableEq

/-- Read the counter stored under a color key. -/
def Captures.get : Captures → Stone → Nat
  | c, .White => c.white
  | c, .Black => c.black

/-- Rust `self.state.captures[color] += n`. -/
def Captures.add (c : Captures) (s : Stone) (n : Nat) : Captures :=
  match s with
  | .White => { c with white := c.white + n }
  | .Black => { c with black := c.black + n }

/-- Rust `type Board = Vec<Option<Stone>>`. -/
abbrev Board := List (Option Stone)

/-- Rust `struct GameState`. -/
structure GameState where
  board : Board
  captures : Captures
deriving DecidableEq

/-- Rust `GameState::new`. -/
def GameState.new (size : Nat) : GameState :=
  { board := List.replicate (size * size) none,
    captures := { white := 0, black := 0 } }

/-- Rust `struct Game`; `history` holds its most recent snapshot at the head. -/
structure Game where
  size : Nat
  turn : Stone
  state : GameState
  history : List GameState
deriving DecidableEq

/-- Rust `Game::new`. -/
def Game.new (size : Nat) : Game :=
  { size := size, turn := .White, state := GameState.new size, history := [] }

/-- Rust `Game::stone_at`: `p.index(self.size).and_then(|i| self.state.board[i])`. -/
def Game.stone_at (g : Game) (p : Pos) : Option Stone :=
  match p.index g.size with
  | some i => g.state.board.getD i none
  | none => none

/-- Rust `Game::has_stone_at`: `None != self.stone_at(p)`. -/
def Game.has_stone_at (g : Game) (p : Pos) : Bool :=
  g.stone_at p != none

/-- Result of one run of the `while let Some(p) = todo.pop()` loop of
`Game::is_surrounded`.  `outOfFuel` is a model artifact: the theorem for
claim C10 shows it is never produced when the loop is seeded as in the
source. -/
inductive LoopResult
  | notSurrounded
  | surrounded (struct : List Pos)
  | outOfFuel
deriving DecidableEq

/-- The `for np in p.neighbors(self.size)` body of `Game::is_surrounded`:
scan the neighbors of the just-popped position; an empty neighbor aborts
the whole search (`return None`, modelled as `none`), a same-colored
neighbor not yet recorded is pushed onto the work list. -/
def Game.processNeighbors (g : Game) (color : Stone) :
    List Pos → List Pos → List Pos → Option (List Pos)
  | [], todo, _ => some todo
  | np :: nps, todo, struct =>
    if ¬ g.has_stone_at np then
      none
    else
      match g.stone_at np with
      | some neighbor_color =>
        if neighbor_color = color ∧ np ∉ struct ∧ np ∉ todo then
          g.processNeighbors color nps (np :: todo) struct
        else
          g.processNeighbors color nps todo struct
      | none => g.processNeighbors color nps todo struct

/-- The work-list loop of `Game::is_surrounded`: pop a position, append it
to the accumulated structure, scan its neighbors. -/
def Game.surroundLoop (g : Game) (color : Stone) :
    Nat → List Pos → List Pos → LoopResult
  | _, [], struct => .surrounded struct
  | 0, _ :: _, _ => .outOfFuel
  | fuel + 1, p :: todo, struct =>
    let struct' := struct ++ [p]
    match g.processNeighbors color (p.neighbors g.size) todo struct' with
    | none => .notSurrounded
    | some todo' => g.surroundLoop color fuel todo' struct'

/-- Rust `Game::is_surrounded`. -/
def Game.is_surrounded (g : Game) (p : Pos) : Option (Stone × List Pos) :=
  match g.stone_at p with
  | some color =>
    match g.surroundLoop color (g.size * g.size) [p] [] with
    | .surrounded struct => some (color, struct)
    | _ => none
  | none => none

/-- Rust `Game::remove_if_surrounded`. -/
def Game.remove_if_surrounded (g : Game) (p : Pos) : Game :=
  match g.is_surrounded p with
  | some (color, struct) =>
    let num_captures := struct.length
    let board' := struct.foldl (fun b q =>
        match q.index g.size with
        | some i => b.set i none
        | none => b) g.state.board
    { g with state := { board := board',
                        captures := g.state.captures.add color num_captures } }
  | none => g

/-- Rust `self.history.push(self.state.clone())`. -/
def Game.pushHistory (g : Game) : Game :=
  { g with history := g.state :: g.history }

/-- Rust `self.state.board[i] = Some(self.turn)`. -/
def Game.setStone (g : Game) (i : Nat) : Game :=
  { g with state := { g.state with board := g.state.board.set i (some g.turn) } }

/-- The `for np in p.neighbors(self.size)` loop of `Game::try_place_stone`:
resolve every orthogonal neighbor currently holding the opponent's color. -/
def Game.resolveOpponents (g : Game) (p : Pos) : Game :=
  (p.neighbors g.size).foldl
    (fun h np =>
      if h.stone_at np == some (-h.turn) then h.remove_if_surrounded np else h)
    g

/-- The ko test of `Game::try_place_stone`:
`len >= 2 && history.get(len - 2).map(board) == Some(state.board)`. -/
def Game.koTriggered (g : Game) : Bool :=
  decide (2 ≤ g.history.length) &&
    (g.history[1]?.map (fun s => s.board) == some g.state.board)

/-- The tail of `Game::try_place_stone`: on a ko violation pop the
just-pushed snapshot back into the current state and return, otherwise
flip the turn. -/
def Game.applyKo (g : Game) : Game :=
  if g.koTriggered then
    match g.history with
    | s :: rest => { g with state := s, history := rest }
    | [] => g
  else
    { g with turn := -g.turn }

/-- The state of `Game::try_place_stone` just before its ko test: snapshot
pushed, stone placed, opponent neighbors resolved, own group resolved. -/
def Game.preKo (g : Game) (p : Pos) (i : Nat) : Game :=
  (((g.pushHistory).setStone i).resolveOpponents p).remove_if_surrounded p

/-- Rust `Game::try_place_stone`. -/
def Game.try_place_stone (g : Game) (p : Pos) : Game :=
  match p.index g.size with
  | none => g
  | some i =>
    if g.has_stone_at p then g
    else (g.preKo p i).applyKo

/-- Whether a placement attempt is accepted: the target maps to a valid
index, is empty, and the resulting position does not trip the ko test. -/
def Game.placeAccepted (g : Game) (p : Pos) : Bool :=
  match p.index g.size with
  | none => false
  | some i => if g.has_stone_at p then false else !(g.preKo p i).koTriggered

/- Mathematical specification of groups and liberties, following the
spec's glossary: a group is the maximal set of same-colored stones
connected via orthogonal adjacency, and it has zero liberties when no
member has an empty in-bounds orthogonal neighbor. -/

/-- One connectivity step: `b` is a valid orthogonal neighbor of `a`
holding a stone of the given color. -/
def Game.adjStep (g : Game) (color : Stone) (a b : Pos) : Prop :=
  b ∈ a.neighbors g.size ∧ g.stone_at b = some color

/-- Membership in the connected same-color group grown from `p`. -/
def Game.inGroup (g : Game) (color : Stone) (p q : Pos) : Prop :=
  Relation.ReflTransGen (g.adjStep color) p q

/-- The group of `p` has zero liberties: every member's every valid
orthogonal neighbor holds a stone. -/
def Game.groupNoLiberties (g : Game) (color : Stone) (p : Pos) : Prop :=
  ∀ q, g.inGroup color p q → ∀ n ∈ q.neighbors g.size, g.has_stone_at n = true

/- Infrastructure lemmas about positions, bounds and indexing. -/

theorem i32cast_le_self (s : Nat) : i32cast s ≤ (s : Int) := by
  unfold i32cast
  by_cases h : s % 4294967296 < 2147483648
  · simp only [h, if_true]
    exact_mod_cast Nat.mod_le s 4294967296
  · simp only [h, if_false]
    have : (s % 4294967296 : Int) ≤ (s : Int) := by exact_mod_cast Nat.mod_le s 4294967296
    omega

theorem i32cast_eq_of_lt {s : Nat} (h : s < 2147483648) : i32cast s = (s : Int) := by
  unfold i32cast
  have h32 : s % 4294967296 = s := Nat.mod_eq_of_lt (by omega)
  simp [h32, h]

theorem Pos.valid_iff {p : Pos} {s : Nat} :
    p.valid s = true ↔ 0 ≤ p.x ∧ p.x < i32cast s ∧ 0 ≤ p.y ∧ p.y < i32cast s := by
  simp [Pos.valid]

theorem Pos.valid_coord_lt {p : Pos} {s : Nat} (h : p.valid s = true) :
    p.x.toNat < s ∧ p.y.toNat < s := by
  rw [Pos.valid_iff] at h
  obtain ⟨hx0, hxs, hy0, hys⟩ := h
  have hle := i32cast_le_self s
  constructor
  · omega
  · omega

theorem Pos.index_eq_of_valid {p : Pos} {s : Nat} (h : p.valid s = true) :
    p.index s = some ((p.y.toNat * s + p.x.toNat) % 18446744073709551616) := by
  simp [Pos.index, h]

theorem Pos.index_lt {p : Pos} {s : Nat} {i : Nat} (h : p.index s = some i) :
    i < s * s := by
  unfold Pos.index at h
  by_cases hv : p.valid s = true
  · simp only [hv, if_true, Option.some.injEq] at h
    obtain ⟨hx, hy⟩ := Pos.valid_coord_lt hv
    have hb : p.y.toNat * s + p.x.toNat < s * s := by
      calc p.y.toNat * s + p.x.toNat ≤ (s - 1) * s + (s - 1) := by
            apply Nat.add_le_add
            · exact Nat.mul_le_mul_right s (by omega)
            · omega
        _ < s * s := by
            have hs1 : 1 ≤ s := by omega
            calc (s - 1) * s + (s - 1) < (s - 1) * s + s := by omega
              _ = s * s := by
                  have : (s - 1) * s + s = (s - 1 + 1) * s := by ring
                  rw [this, Nat.sub_add_cancel hs1]
    have := Nat.mod_le (p.y.toNat * s + p.x.toNat) 18446744073709551616
    omega
  · simp [hv] at h

theorem Pos.index_valid {p : Pos} {s : Nat} {i : Nat} (h : p.index s = some i) :
    p.valid s = true := by
  unfold Pos.index at h
  by_cases hv : p.valid s = true
  · exact hv
  · simp [hv] at h

theorem Pos.index_nowrap {p : Pos} {s : Nat} (h0 : s < 2147483648)
    (h : p.valid s = true) : p.index s = some (p.y.toNat * s + p.x.toNat) := by
  rw [Pos.index_eq_of_valid h]
  obtain ⟨hx, hy⟩ := Pos.valid_coord_lt h
  congr 1
  apply Nat.mod_eq_of_lt
  have hb : p.y.toNat * s + p.x.toNat < s * s := by
    nlinarith
  nlinarith

theorem Pos.index_inj {p q : Pos} {s : Nat} (h0 : s < 2147483648)
    (hp : p.valid s = true) (hq : q.valid s = true)
    (h : p.index s = q.index s) : p = q := by
  rw [Pos.index_nowrap h0 hp, Pos.index_nowrap h0 hq] at h
  obtain ⟨hpx, hpy⟩ := Pos.valid_coord_lt hp
  obtain ⟨hqx, hqy⟩ := Pos.valid_coord_lt hq
  have h' : p.y.toNat * s + p.x.toNat = q.y.toNat * s + q.x.toNat :=
    Option.some_injective _ h
  have hs : 0 < s := by omega
  have hxe : p.x.toNat = q.x.toNat := by
    have e1 : (p.y.toNat * s + p.x.toNat) % s = p.x.toNat % s := by
      rw [Nat.mul_comm]
      exact Nat.mul_add_mod _ _ _
    have e2 : (q.y.toNat * s + q.x.toNat) % s = q.x.toNat % s := by
      rw [Nat.mul_comm]
      exact Nat.mul_add_mod _ _ _
    rw [Nat.mod_eq_of_lt hpx] at e1
    rw [Nat.mod_eq_of_lt hqx] at e2
    rw [h', e2] at e1
    omega
  have hye : p.y.toNat = q.y.toNat := by
    have : p.y.toNat * s = q.y.toNat * s := by omega
    exact Nat.eq_of_mul_eq_mul_right hs this
  rw [Pos.valid_iff] at hp hq
  obtain ⟨hx1, _, hy1, _⟩ := hp
  obtain ⟨hx2, _, hy2, _⟩ := hq
  cases p with
  | mk px py =>
    cases q with
    | mk qx qy =>
      simp only [Pos.mk.injEq]
      simp only at hxe hye hx1 hy1 hx2 hy2
      constructor
      · omega
      · omega

theorem Pos.mem_neighbors {p q : Pos} {s : Nat} :
    q ∈ p.neighbors s ↔
      (q.valid s = true ∧
        (q = Pos.mk (p.x - 1) p.y ∨ q = Pos.mk (p.x + 1) p.y ∨
         q = Pos.mk p.x (p.y - 1) ∨ q = Pos.mk p.x (p.y + 1))) := by
  simp only [Pos.neighbors, List.mem_filter, List.mem_cons, List.not_mem_nil, or_false]
  tauto

theorem Pos.neighbors_valid {p q : Pos} {s : Nat} (h : q ∈ p.neighbors s) :
    q.valid s = true :=
  (Pos.mem_neighbors.mp h).1

theorem Pos.neighbors_symm {p q : Pos} {s : Nat} (hp : p.valid s = true)
    (h : q ∈ p.neighbors s) : p ∈ q.neighbors s := by
  rw [Pos.mem_neighbors] at h ⊢
  obtain ⟨hqv, hcase⟩ := h
  refine ⟨hp, ?_⟩
  rcases hcase with h | h | h | h <;> subst h <;> simp

/- Field bookkeeping for the executor phases. -/

theorem Game.remove_if_surrounded_size (g : Game) (p : Pos) :
    (g.remove_if_surrounded p).size = g.size := by
  unfold Game.remove_if_surrounded
  cases h : g.is_surrounded p with
  | none => rfl
  | some v => cases v with | mk c l => rfl

theorem Game.remove_if_surrounded_turn (g : Game) (p : Pos) :
    (g.remove_if_surrounded p).turn = g.turn := by
  unfold Game.remove_if_surrounded
  cases h : g.is_surrounded p with
  | none => rfl
  | some v => cases v with | mk c l => rfl

theorem Game.remove_if_surrounded_history (g : Game) (p : Pos) :
    (g.remove_if_surrounded p).history = g.history := by
  unfold Game.remove_if_surrounded
  cases h : g.is_surrounded p with
  | none => rfl
  | some v => cases v with | mk c l => rfl

theorem Game.resolveOpponents_size (g : Game) (p : Pos) :
    (g.resolveOpponents p).size = g.size := by
  unfold Game.resolveOpponents
  generalize p.neighbors g.size = l
  induction l generalizing g with
  | nil => rfl
  | cons np nps ih =>
    simp only [List.foldl_cons]
    by_cases h : (g.stone_at np == some (-g.turn)) = true
    · simp only [h, if_true]
      rw [ih]
      exact Game.remove_if_surrounded_size g np
    · simp only [h, if_false]
      exact ih g

theorem Game.resolveOpponents_turn (g : Game) (p : Pos) :
    (g.resolveOpponents p).turn = g.turn := by
  unfold Game.resolveOpponents
  generalize p.neighbors g.size = l
  induction l generalizing g with
  | nil => rfl
  | cons np nps ih =>
    simp only [List.foldl_cons]
    by_cases h : (g.stone_at np == some (-g.turn)) = true
    · simp only [h, if_true]
      rw [ih]
      exact Game.remove_if_surrounded_turn g np
    · simp only [h, if_false]
      exact ih g

theorem Game.resolveOpponents_history (g : Game) (p : Pos) :
    (g.resolveOpponents p).history = g.history := by
  unfold Game.resolveOpponents
  generalize p.neighbors g.size = l
  induction l generalizing g with
  | nil => rfl
  | cons np nps ih =>
    simp only [List.foldl_cons]
    by_cases h : (g.stone_at np == some (-g.turn)) = true
    · simp only [h, if_true]
      rw [ih]
      exact Game.remove_if_surrounded_history g np
    · simp only [h, if_false]
      exact ih g

theorem Game.preKo_size (g : Game) (p : Pos) (i : Nat) :
    (g.preKo p i).size = g.size := by
  unfold Game.preKo
  rw [Game.remove_if_surrounded_size, Game.resolveOpponents_size]
  rfl

theorem Game.preKo_turn (g : Game) (p : Pos) (i : Nat) :
    (g.preKo p i).turn = g.turn := by
  unfold Game.preKo
  rw [Game.remove_if_surrounded_turn, Game.resolveOpponents_turn]
  rfl

theorem Game.preKo_history (g : Game) (p : Pos) (i : Nat) :
    (g.preKo p i).history = g.state :: g.history := by
  unfold Game.preKo
  rw [Game.remove_if_surrounded_history, Game.resolveOpponents_history]
  rfl

/- Board reads and the removal fold of `remove_if_surrounded`. -/

theorem Game.stone_at_valid {g : Game} {p : Pos} {c : Stone}
    (h : g.stone_at p = some c) : p.valid g.size = true := by
  unfold Game.stone_at at h
  cases hi : p.index g.size with
  | none => rw [hi] at h; exact absurd h (by simp)
  | some i => exact Pos.index_valid hi

theorem Game.stone_at_index {g : Game} {p : Pos} {c : Stone}
    (h : g.stone_at p = some c) : ∃ i, p.index g.size = some i := by
  unfold Game.stone_at at h
  cases hi : p.index g.size with
  | none => rw [hi] at h; exact absurd h (by simp)
  | some i => exact ⟨i, rfl⟩

theorem Game.has_stone_at_true_iff {g : Game} {p : Pos} :
    g.has_stone_at p = true ↔ g.stone_at p ≠ none := by
  unfold Game.has_stone_at
  cases g.stone_at p <;> simp

theorem Game.has_stone_at_false_iff {g : Game} {p : Pos} :
    g.has_stone_at p = false ↔ g.stone_at p = none := by
  unfold Game.has_stone_at
  cases g.stone_at p <;> simp

/-- The board produced by the removal loop of `remove_if_surrounded`. -/
def removeAll (s : Nat) (l : List Pos) (b : Board) : Board :=
  l.foldl (fun bb q =>
    match q.index s with
    | some i => bb.set i none
    | none => bb) b

theorem Game.remove_if_surrounded_eq_some {g : Game} {p : Pos} {c : Stone}
    {l : List Pos} (h : g.is_surrounded p = some (c, l)) :
    g.remove_if_surrounded p =
      { g with state := { board := removeAll g.size l g.state.board,
                          captures := g.state.captures.add c l.length } } := by
  unfold Game.remove_if_surrounded removeAll
  rw [h]

theorem Game.remove_if_surrounded_eq_none {g : Game} {p : Pos}
    (h : g.is_surrounded p = none) : g.remove_if_surrounded p = g := by
  unfold Game.remove_if_surrounded
  rw [h]

theorem removeAll_nil (s : Nat) (b : Board) : removeAll s [] b = b := rfl

theorem removeAll_cons_some {s i : Nat} {r : Pos} (hr : r.index s = some i)
    (l : List Pos) (b : Board) :
    removeAll s (r :: l) b = removeAll s l (b.set i none) := by
  unfold removeAll
  simp only [List.foldl_cons, hr]

theorem removeAll_cons_none {s : Nat} {r : Pos} (hr : r.index s = none)
    (l : List Pos) (b : Board) :
    removeAll s (r :: l) b = removeAll s l b := by
  unfold removeAll
  simp only [List.foldl_cons, hr]

theorem removeAll_length (s : Nat) (l : List Pos) (b : Board) :
    (removeAll s l b).length = b.length := by
  induction l generalizing b with
  | nil => rfl
  | cons q l ih =>
    cases hq : q.index s with
    | none => rw [removeAll_cons_none hq]; exact ih b
    | some i =>
      rw [removeAll_cons_some hq, ih]
      exact List.length_set b i none

theorem removeAll_getElem?_of_not_mem {s : Nat} {l : List Pos} {b : Board} {j : Nat}
    (h : ∀ q ∈ l, q.index s ≠ some j) :
    (removeAll s l b)[j]? = b[j]? := by
  induction l generalizing b with
  | nil => rfl
  | cons q l ih =>
    cases hq : q.index s with
    | none =>
      rw [removeAll_cons_none hq]
      exact ih (fun r hr => h r (List.mem_cons_of_mem q hr))
    | some i =>
      rw [removeAll_cons_some hq]
      rw [ih (fun r hr => h r (List.mem_cons_of_mem q hr))]
      have hij : i ≠ j := by
        intro he
        exact h q (List.mem_cons_self q l) (he ▸ hq)
      exact List.getElem?_set_ne hij

theorem removeAll_getElem?_none_stable {s : Nat} (l : List Pos) {b : Board} {j : Nat}
    (h : b[j]? = none ∨ b[j]? = some none) :
    (removeAll s l b)[j]? = none ∨ (removeAll s l b)[j]? = some none := by
  induction l generalizing b with
  | nil => exact h
  | cons q l ih =>
    cases hq : q.index s with
    | none =>
      rw [removeAll_cons_none hq]
      exact ih h
    | some i =>
      rw [removeAll_cons_some hq]
      apply ih
      by_cases hij : i = j
      · subst hij
        by_cases hlt : i < b.length
        · right; exact List.getElem?_set_eq_of_lt none hlt
        · left
          apply List.getElem?_eq_none
          rw [List.length_set]
          omega
      · rw [List.getElem?_set_ne hij]; exact h

theorem removeAll_getElem?_of_mem {s : Nat} {l : List Pos} {b : Board} {j : Nat}
    {q : Pos} (hq : q ∈ l) (hidx : q.index s = some j) (hlt : j < b.length) :
    (removeAll s l b)[j]? = some none := by
  induction l generalizing b with
  | nil => exact absurd hq (by simp)
  | cons r l ih =>
    rw [List.mem_cons] at hq
    by_cases hcase : q = r
    · subst hcase
      rw [removeAll_cons_some hidx]
      have hstep : (b.set j none)[j]? = some none := List.getElem?_set_eq_of_lt none hlt
      have hst := @removeAll_getElem?_none_stable s l (b.set j none) j (Or.inr hstep)
      rcases hst with h | h
      · rw [List.getElem?_eq_none_iff] at h
        rw [removeAll_length, List.length_set] at h
        omega
      · exact h
    · have hq' : q ∈ l := by
        rcases hq with h | h
        · exact absurd h hcase
        · exact h
      cases hr : r.index s with
      | none =>
        rw [removeAll_cons_none hr]
        exact ih hq' hlt
      | some i =>
        rw [removeAll_cons_some hr]
        apply ih hq'
        rw [List.length_set]
        exact hlt

/-- Reading a removed-from game: a position whose index was hit by some
removed position reads empty. -/
theorem Game.stone_at_removeAll_of_mem {g : Game} {l : List Pos} {q : Pos} {j : Nat}
    (hq : q ∈ l) (hidx : q.index g.size = some j)
    (g' : Game) (hsz : g'.size = g.size)
    (hb : g'.state.board = removeAll g.size l g.state.board) :
    g'.stone_at q = none := by
  unfold Game.stone_at
  simp only [hsz, hidx]
  by_cases hlt : j < g.state.board.length
  · rw [hb, List.getD_eq_getElem?_getD, removeAll_getElem?_of_mem hq hidx hlt]
    rfl
  · rw [hb, List.getD_eq_getElem?_getD]
    have hlen : (removeAll g.size l g.state.board).length = g.state.board.length :=
      removeAll_length _ _ _
    rw [List.getElem?_eq_none (by omega)]
    rfl

/-- Reading a removed-from game at a position whose index none of the
removed positions hits is unchanged. -/
theorem Game.stone_at_removeAll_of_not_hit {g : Game} {l : List Pos} {q : Pos}
    (h : ∀ r ∈ l, r.index g.size ≠ q.index g.size ∨ q.index g.size = none)
    (g' : Game) (hsz : g'.size = g.size)
    (hb : g'.state.board = removeAll g.size l g.state.board) :
    g'.stone_at q = g.stone_at q := by
  unfold Game.stone_at
  cases hj : q.index g.size with
  | none => simp only [hsz, hj]
  | some j =>
    simp only [hsz, hj]
    rw [hb, List.getD_eq_getElem?_getD, List.getD_eq_getElem?_getD]
    rw [removeAll_getElem?_of_not_mem]
    intro r hr
    rcases h r hr with h' | h'
    · rw [hj] at h'
      intro he
      exact h' (he.trans rfl)
    · rw [hj] at h'
      exact absurd h' (by simp)

/- Lemmas about the mathematical group relation. -/

theorem Game.inGroup_refl (g : Game) (color : Stone) (p : Pos) :
    g.inGroup color p p :=
  Relation.ReflTransGen.refl

theorem Game.inGroup_trans {g : Game} {color : Stone} {p q r : Pos}
    (h1 : g.inGroup color p q) (h2 : g.inGroup color q r) :
    g.inGroup color p r :=
  Relation.ReflTransGen.trans h1 h2

theorem Game.inGroup_stone {g : Game} {color : Stone} {p q : Pos}
    (hp : g.stone_at p = some color) (h : g.inGroup color p q) :
    g.stone_at q = some color := by
  induction h with
  | refl => exact hp
  | tail _ hstep ih => exact hstep.2

theorem Game.inGroup_symm {g : Game} {color : Stone} {p q : Pos}
    (hp : g.stone_at p = some color) (h : g.inGroup color p q) :
    g.inGroup color q p := by
  induction h with
  | refl => exact Relation.ReflTransGen.refl
  | tail hmid hstep ih =>
    rename_i m r
    have hm : g.stone_at m = some color := Game.inGroup_stone hp hmid
    have hmv : m.valid g.size = true := Game.stone_at_valid hm
    have hstep' : g.adjStep color r m :=
      ⟨Pos.neighbors_symm hmv hstep.1, hm⟩
    exact Relation.ReflTransGen.head hstep' ih

theorem Game.inGroup_join {g : Game} {color : Stone} {a b x : Pos}
    (ha : g.stone_at a = some color)
    (h1 : g.inGroup color a x) (h2 : g.inGroup color b x) :
    g.inGroup color b a := by
  have hx : g.inGroup color x a := Game.inGroup_symm ha h1
  exact Game.inGroup_trans h2 hx

/-- The finite set of valid positions of a board of the given size. -/
def validFinset (s : Nat) : Finset Pos :=
  (Finset.range s ×ˢ Finset.range s).image
    (fun ab => Pos.mk (ab.1 : Int) (ab.2 : Int))

theorem mem_validFinset {p : Pos} {s : Nat} (h : p.valid s = true) :
    p ∈ validFinset s := by
  rw [Pos.valid_iff] at h
  obtain ⟨hx0, hxs, hy0, hys⟩ := h
  have hle := i32cast_le_self s
  unfold validFinset
  rw [Finset.mem_image]
  refine ⟨(p.x.toNat, p.y.toNat), ?_, ?_⟩
  · rw [Finset.mem_product]
    constructor
    · rw [Finset.mem_range]; omega
    · rw [Finset.mem_range]; omega
  · cases p with
    | mk px py =>
      simp only [Pos.mk.injEq]
      constructor
      · simp only at hx0 ⊢
        omega
      · simp only at hy0 ⊢
        omega

theorem validFinset_card_le (s : Nat) : (validFinset s).card ≤ s * s := by
  unfold validFinset
  calc ((Finset.range s ×ˢ Finset.range s).image
          (fun ab => Pos.mk (ab.1 : Int) (ab.2 : Int))).card
      ≤ (Finset.range s ×ˢ Finset.range s).card := Finset.card_image_le
    _ = s * s := by rw [Finset.card_product, Finset.card_range]

/- Equation lemmas for processNeighbors. -/

theorem Game.pn_nil (g : Game) (color : Stone) (todo struct : List Pos) :
    g.processNeighbors color [] todo struct = some todo := rfl

theorem Game.pn_cons_empty {g : Game} {np : Pos}
    (h : g.has_stone_at np = false) (color : Stone)
    (nps todo struct : List Pos) :
    g.processNeighbors color (np :: nps) todo struct = none := by
  rw [Game.processNeighbors.eq_def]
  simp [h]

theorem Game.pn_cons_push {g : Game} {np : Pos} {color : Stone}
    (h : g.stone_at np = some color) (hs : np ∉ struct) (ht : np ∉ todo)
    (nps : List Pos) :
    g.processNeighbors color (np :: nps) todo struct =
      g.processNeighbors color nps (np :: todo) struct := by
  have hh : g.has_stone_at np = true := by
    rw [Game.has_stone_at_true_iff, h]
    simp
  rw [Game.processNeighbors.eq_def]
  simp [hh, h, hs, ht]

theorem Game.pn_cons_skip_color {g : Game} {np : Pos} {color d : Stone}
    (h : g.stone_at np = some d) (hd : d ≠ color)
    (nps todo struct : List Pos) :
    g.processNeighbors color (np :: nps) todo struct =
      g.processNeighbors color nps todo struct := by
  have hh : g.has_stone_at np = true := by
    rw [Game.has_stone_at_true_iff, h]
    simp
  rw [Game.processNeighbors.eq_def]
  simp [hh, h, hd]

theorem Game.pn_cons_skip_mem {g : Game} {np : Pos} {color : Stone}
    (h : g.stone_at np = some color) (hmem : np ∈ struct ∨ np ∈ todo)
    (nps todo' struct' : List Pos) (he1 : todo' = todo) (he2 : struct' = struct) :
    g.processNeighbors color (np :: nps) todo' struct' =
      g.processNeighbors color nps todo' struct' := by
  subst he1
  subst he2
  have hh : g.has_stone_at np = true := by
    rw [Game.has_stone_at_true_iff, h]
    simp
  rw [Game.processNeighbors.eq_def]
  rcases hmem with hm | hm
  · simp [hh, h, hm]
  · simp [hh, h, hm]

/- Full behavioral specification of processNeighbors. -/

theorem Game.pn_spec {g : Game} {color : Stone} {struct : List Pos} :
    ∀ (nps : List Pos) {todo todo' : List Pos},
    g.processNeighbors color nps todo struct = some todo' →
    (∀ q ∈ todo, q ∈ todo') ∧
    (∀ q ∈ todo', q ∈ todo ∨ (q ∈ nps ∧ g.stone_at q = some color)) ∧
    ((struct ++ todo).Nodup → (struct ++ todo').Nodup) ∧
    (∀ n ∈ nps, g.has_stone_at n = true) ∧
    (∀ n ∈ nps, g.stone_at n = some color → n ∈ struct ∨ n ∈ todo') := by
  intro nps
  induction nps with
  | nil =>
    intro todo todo' h
    rw [Game.pn_nil] at h
    cases h
    exact ⟨fun q hq => hq, fun q hq => Or.inl hq, fun hh => hh, by simp, by simp⟩
  | cons np nps ih =>
    intro todo todo' h
    by_cases hstone : g.has_stone_at np = true
    · obtain ⟨d, hd⟩ : ∃ d, g.stone_at np = some d := by
        rw [Game.has_stone_at_true_iff] at hstone
        cases hs : g.stone_at np with
        | none => exact absurd hs hstone
        | some d => exact ⟨d, rfl⟩
      by_cases hcol : d = color
      · subst hcol
        by_cases hmem : np ∈ struct ∨ np ∈ todo
        · rw [Game.pn_cons_skip_mem hd hmem nps todo struct rfl rfl] at h
          obtain ⟨P1, P2, P3, P4, P5⟩ := ih h
          refine ⟨P1, ?_, P3, ?_, ?_⟩
          · intro q hq
            rcases P2 q hq with h' | h'
            · exact Or.inl h'
            · exact Or.inr ⟨List.mem_cons_of_mem np h'.1, h'.2⟩
          · intro n hn
            rcases List.mem_cons.mp hn with he | hn'
            · subst he; exact hstone
            · exact P4 n hn'
          · intro n hn hcn
            rcases List.mem_cons.mp hn with he | hn'
            · subst he
              rcases hmem with hm | hm
              · exact Or.inl hm
              · exact Or.inr (P1 _ hm)
            · exact P5 n hn' hcn
        · push_neg at hmem
          rw [Game.pn_cons_push hd hmem.1 hmem.2 nps] at h
          obtain ⟨P1, P2, P3, P4, P5⟩ := ih h
          refine ⟨?_, ?_, ?_, ?_, ?_⟩
          · intro q hq
            exact P1 q (List.mem_cons_of_mem np hq)
          · intro q hq
            rcases P2 q hq with h' | h'
            · rcases List.mem_cons.mp h' with he | hq'
              · rw [he]
                exact Or.inr ⟨List.mem_cons_self np nps, hd⟩
              · exact Or.inl hq'
            · exact Or.inr ⟨List.mem_cons_of_mem np h'.1, h'.2⟩
          · intro hnd
            apply P3
            rw [List.nodup_middle]
            constructor
            · intro a' ha' he
              subst he
              rcases List.mem_append.mp ha' with h' | h'
              · exact hmem.1 h'
              · exact hmem.2 h'
            · exact hnd
          · intro n hn
            rcases List.mem_cons.mp hn with he | hn'
            · subst he; exact hstone
            · exact P4 n hn'
          · intro n hn hcn
            rcases List.mem_cons.mp hn with he | hn'
            · rw [he]
              exact Or.inr (P1 np (List.mem_cons_self np todo))
            · exact P5 n hn' hcn
      · rw [Game.pn_cons_skip_color hd hcol nps todo struct] at h
        obtain ⟨P1, P2, P3, P4, P5⟩ := ih h
        refine ⟨P1, ?_, P3, ?_, ?_⟩
        · intro q hq
          rcases P2 q hq with h' | h'
          · exact Or.inl h'
          · exact Or.inr ⟨List.mem_cons_of_mem np h'.1, h'.2⟩
        · intro n hn
          rcases List.mem_cons.mp hn with he | hn'
          · subst he; exact hstone
          · exact P4 n hn'
        · intro n hn hcn
          rcases List.mem_cons.mp hn with he | hn'
          · subst he
            rw [hd] at hcn
            cases hcn
            exact absurd rfl hcol
          · exact P5 n hn' hcn
    · have hf : g.has_stone_at np = false := by
        cases hb : g.has_stone_at np with
        | false => rfl
        | true => exact absurd hb hstone
      rw [Game.pn_cons_empty hf color nps todo struct] at h
      exact absurd h (by simp)

theorem Game.pn_none_spec {g : Game} {color : Stone} :
    ∀ (nps : List Pos) {todo struct : List Pos},
    g.processNeighbors color nps todo struct = none →
    ∃ n ∈ nps, g.has_stone_at n = false := by
  intro nps
  induction nps with
  | nil =>
    intro todo struct h
    rw [Game.pn_nil] at h
    exact absurd h (by simp)
  | cons np nps ih =>
    intro todo struct h
    by_cases hstone : g.has_stone_at np = true
    · obtain ⟨d, hd⟩ : ∃ d, g.stone_at np = some d := by
        rw [Game.has_stone_at_true_iff] at hstone
        cases hs : g.stone_at np with
        | none => exact absurd hs hstone
        | some d => exact ⟨d, rfl⟩
      by_cases hcol : d = color
      · subst hcol
        by_cases hmem : np ∈ struct ∨ np ∈ todo
        · rw [Game.pn_cons_skip_mem hd hmem nps todo struct rfl rfl] at h
          obtain ⟨n, hn, hns⟩ := ih h
          exact ⟨n, List.mem_cons_of_mem np hn, hns⟩
        · push_neg at hmem
          rw [Game.pn_cons_push hd hmem.1 hmem.2 nps] at h
          obtain ⟨n, hn, hns⟩ := ih h
          exact ⟨n, List.mem_cons_of_mem np hn, hns⟩
      · rw [Game.pn_cons_skip_color hd hcol nps todo struct] at h
        obtain ⟨n, hn, hns⟩ := ih h
        exact ⟨n, List.mem_cons_of_mem np hn, hns⟩
    · have hf : g.has_stone_at np = false := by
        cases hb : g.has_stone_at np with
        | false => rfl
        | true => exact absurd hb hstone
      exact ⟨np, List.mem_cons_self np nps, hf⟩

/-- Invariant of the work-list loop of `is_surrounded`, seeded at `p0`:
every recorded position holds the searched color and is reachable from the
seed; recorded positions are pairwise distinct; the seed is recorded; and
every neighbor of an already-popped position has a stone, with same-colored
ones recorded. -/
structure LoopInv (g : Game) (color : Stone) (p0 : Pos)
    (todo struct : List Pos) : Prop where
  color_mem : ∀ q ∈ struct ++ todo, g.stone_at q = some color
  nodup : (struct ++ todo).Nodup
  reach : ∀ q ∈ struct ++ todo, g.inGroup color p0 q
  seed : p0 ∈ struct ++ todo
  closed : ∀ s_ ∈ struct, ∀ n ∈ s_.neighbors g.size,
      g.has_stone_at n = true ∧ (g.stone_at n = some color → n ∈ struct ++ todo)

theorem Game.loopInv_init {g : Game} {color : Stone} {p0 : Pos}
    (h : g.stone_at p0 = some color) : LoopInv g color p0 [p0] [] := by
  refine ⟨?_, ?_, ?_, ?_, ?_⟩
  · intro q hq
    simp only [List.nil_append, List.mem_singleton] at hq
    rw [hq]
    exact h
  · simp
  · intro q hq
    simp only [List.nil_append, List.mem_singleton] at hq
    rw [hq]
    exact Game.inGroup_refl g color p0
  · simp
  · intro s_ hs
    exact absurd hs (by simp)

theorem Game.loopInv_step {g : Game} {color : Stone} {p0 p : Pos}
    {todo struct todo' : List Pos}
    (inv : LoopInv g color p0 (p :: todo) struct)
    (h : g.processNeighbors color (p.neighbors g.size) todo (struct ++ [p]) =
          some todo') :
    LoopInv g color p0 todo' (struct ++ [p]) := by
  obtain ⟨P1, P2, P3, P4, P5⟩ := Game.pn_spec (p.neighbors g.size) h
  have hmemold : ∀ q, q ∈ struct ++ p :: todo ↔ q ∈ (struct ++ [p]) ++ todo := by
    intro q
    simp [List.mem_append, List.mem_cons]
  have hp_mem : p ∈ struct ++ p :: todo := by
    simp
  have hpcolor : g.stone_at p = some color := inv.color_mem p hp_mem
  have hpreach : g.inGroup color p0 p := inv.reach p hp_mem
  refine ⟨?_, ?_, ?_, ?_, ?_⟩
  · intro q hq
    rcases List.mem_append.mp hq with hq' | hq'
    · apply inv.color_mem q
      rcases List.mem_append.mp hq' with h' | h'
      · exact List.mem_append.mpr (Or.inl h')
      · rw [List.mem_singleton] at h'
        subst h'
        exact hp_mem
    · rcases P2 q hq' with h' | h'
      · exact inv.color_mem q
          (List.mem_append.mpr (Or.inr (List.mem_cons_of_mem p h')))
      · exact h'.2
  · apply P3
    have hnd := inv.nodup
    rw [List.append_cons struct p todo] at hnd
    exact hnd
  · intro q hq
    rcases List.mem_append.mp hq with hq' | hq'
    · apply inv.reach q
      rcases List.mem_append.mp hq' with h' | h'
      · exact List.mem_append.mpr (Or.inl h')
      · rw [List.mem_singleton] at h'
        subst h'
        exact hp_mem
    · rcases P2 q hq' with h' | h'
      · exact inv.reach q
          (List.mem_append.mpr (Or.inr (List.mem_cons_of_mem p h')))
      · exact Game.inGroup_trans hpreach
          (Relation.ReflTransGen.single ⟨h'.1, h'.2⟩)
  · have hseed := inv.seed
    rcases List.mem_append.mp ((hmemold p0).mp hseed) with h' | h'
    · exact List.mem_append.mpr (Or.inl h')
    · exact List.mem_append.mpr (Or.inr (P1 p0 h'))
  · intro s_ hs
    rcases List.mem_append.mp hs with hs' | hs'
    · intro n hn
      obtain ⟨ha, hb⟩ := inv.closed s_ hs' n hn
      refine ⟨ha, ?_⟩
      intro hcn
      rcases List.mem_append.mp ((hmemold n).mp (hb hcn)) with h' | h'
      · exact List.mem_append.mpr (Or.inl h')
      · exact List.mem_append.mpr (Or.inr (P1 n h'))
    · rw [List.mem_singleton] at hs'
      subst hs'
      intro n hn
      refine ⟨P4 n hn, ?_⟩
      intro hcn
      rcases P5 n hn hcn with h' | h'
      · exact List.mem_append.mpr (Or.inl h')
      · exact List.mem_append.mpr (Or.inr h')

/- Equation lemmas for surroundLoop. -/

theorem Game.sl_nil (g : Game) (color : Stone) (fuel : Nat) (struct : List Pos) :
    g.surroundLoop color fuel [] struct = .surrounded struct := by
  cases fuel <;> rfl

theorem Game.sl_zero_cons (g : Game) (color : Stone) (p : Pos)
    (todo struct : List Pos) :
    g.surroundLoop color 0 (p :: todo) struct = .outOfFuel := rfl

theorem Game.sl_succ_none {g : Game} {color : Stone} {p : Pos}
    {todo struct : List Pos} (fuel : Nat)
    (h : g.processNeighbors color (p.neighbors g.size) todo (struct ++ [p]) =
          none) :
    g.surroundLoop color (fuel + 1) (p :: todo) struct = .notSurrounded := by
  simp only [Game.surroundLoop, h]

theorem Game.sl_succ_some {g : Game} {color : Stone} {p : Pos}
    {todo struct todo' : List Pos} (fuel : Nat)
    (h : g.processNeighbors color (p.neighbors g.size) todo (struct ++ [p]) =
          some todo') :
    g.surroundLoop color (fuel + 1) (p :: todo) struct =
      g.surroundLoop color fuel todo' (struct ++ [p]) := by
  simp only [Game.surroundLoop, h]

/-- When the loop finishes with an empty work list, the accumulated
structure is exactly the mathematical group of the seed, and that group has
no liberties. -/
theorem Game.sl_final_spec {g : Game} {color : Stone} {p0 : Pos}
    {struct : List Pos} (inv : LoopInv g color p0 [] struct) :
    (∀ q ∈ struct, g.stone_at q = some color) ∧
    (∀ q, q ∈ struct ↔ g.inGroup color p0 q) ∧
    struct.Nodup ∧
    (∀ q ∈ struct, ∀ n ∈ q.neighbors g.size, g.has_stone_at n = true) := by
  have hcol : ∀ q ∈ struct, g.stone_at q = some color := by
    intro q hq
    exact inv.color_mem q (by simp [hq])
  have hseed : p0 ∈ struct := by
    have := inv.seed
    simpa using this
  have hclosed : ∀ s_ ∈ struct, ∀ n ∈ s_.neighbors g.size,
      g.has_stone_at n = true ∧ (g.stone_at n = some color → n ∈ struct) := by
    intro s_ hs n hn
    obtain ⟨ha, hb⟩ := inv.closed s_ hs n hn
    refine ⟨ha, ?_⟩
    intro hcn
    have := hb hcn
    simpa using this
  refine ⟨hcol, ?_, ?_, ?_⟩
  · intro q
    constructor
    · intro hq
      exact inv.reach q (by simp [hq])
    · intro hq
      induction hq with
      | refl => exact hseed
      | tail hmid hstep ih =>
        rename_i m r
        exact (hclosed m ih r hstep.1).2 hstep.2
  · have := inv.nodup
    simpa using this
  · intro q hq n hn
    exact (hclosed q hq n hn).1

/-- Soundness of a `surrounded` loop result. -/
theorem Game.sl_surrounded_spec {g : Game} {color : Stone} {p0 : Pos} :
    ∀ (fuel : Nat) (todo struct out : List Pos),
    LoopInv g color p0 todo struct →
    g.surroundLoop color fuel todo struct = .surrounded out →
    (∀ q ∈ out, g.stone_at q = some color) ∧
    (∀ q, q ∈ out ↔ g.inGroup color p0 q) ∧
    out.Nodup ∧
    (∀ q ∈ out, ∀ n ∈ q.neighbors g.size, g.has_stone_at n = true) := by
  intro fuel
  induction fuel with
  | zero =>
    intro todo struct out inv h
    cases todo with
    | nil =>
      rw [Game.sl_nil] at h
      cases h
      exact Game.sl_final_spec inv
    | cons p rest =>
      rw [Game.sl_zero_cons] at h
      exact absurd h (by simp)
  | succ fuel ih =>
    intro todo struct out inv h
    cases todo with
    | nil =>
      rw [Game.sl_nil] at h
      cases h
      exact Game.sl_final_spec inv
    | cons p rest =>
      cases hpn : g.processNeighbors color (p.neighbors g.size) rest
          (struct ++ [p]) with
      | none =>
        rw [Game.sl_succ_none fuel hpn] at h
        exact absurd h (by simp)
      | some todo' =>
        rw [Game.sl_succ_some fuel hpn] at h
        exact ih todo' (struct ++ [p]) out (Game.loopInv_step inv hpn) h

/-- Soundness of a `notSurrounded` loop result: the seed's group has a
liberty. -/
theorem Game.sl_notSurrounded_spec {g : Game} {color : Stone} {p0 : Pos} :
    ∀ (fuel : Nat) (todo struct : List Pos),
    LoopInv g color p0 todo struct →
    g.surroundLoop color fuel todo struct = .notSurrounded →
    ¬ g.groupNoLiberties color p0 := by
  intro fuel
  induction fuel with
  | zero =>
    intro todo struct inv h
    cases todo with
    | nil =>
      rw [Game.sl_nil] at h
      exact absurd h (by simp)
    | cons p rest =>
      rw [Game.sl_zero_cons] at h
      exact absurd h (by simp)
  | succ fuel ih =>
    intro todo struct inv h
    cases todo with
    | nil =>
      rw [Game.sl_nil] at h
      exact absurd h (by simp)
    | cons p rest =>
      cases hpn : g.processNeighbors color (p.neighbors g.size) rest
          (struct ++ [p]) with
      | none =>
        obtain ⟨n, hn, hns⟩ := Game.pn_none_spec (p.neighbors g.size) hpn
        intro hnl
        have hpreach : g.inGroup color p0 p := inv.reach p (by simp)
        have := hnl p hpreach n hn
        rw [this] at hns
        exact absurd hns (by simp)
      | some todo' =>
        rw [Game.sl_succ_some fuel hpn] at h
        exact ih todo' (struct ++ [p]) (Game.loopInv_step inv hpn) h

/-- Fuel adequacy: with enough fuel the loop never reports `outOfFuel`. -/
theorem Game.sl_fuel_spec {g : Game} {color : Stone} {p0 : Pos} :
    ∀ (fuel : Nat) (todo struct : List Pos),
    LoopInv g color p0 todo struct →
    (validFinset g.size).card ≤ fuel + struct.length →
    g.surroundLoop color fuel todo struct ≠ .outOfFuel := by
  intro fuel
  induction fuel with
  | zero =>
    intro todo struct inv hcard
    cases todo with
    | nil =>
      rw [Game.sl_nil]
      simp
    | cons p rest =>
      exfalso
      have hnd : (struct ++ p :: rest).Nodup := inv.nodup
      have hsub : (struct ++ p :: rest).toFinset ⊆ validFinset g.size := by
        intro q hq
        rw [List.mem_toFinset] at hq
        exact mem_validFinset (Game.stone_at_valid (inv.color_mem q hq))
      have hcard2 : (struct ++ p :: rest).toFinset.card ≤ (validFinset g.size).card :=
        Finset.card_le_card hsub
      rw [List.toFinset_card_of_nodup hnd] at hcard2
      rw [List.length_append, List.length_cons] at hcard2
      omega
  | succ fuel ih =>
    intro todo struct inv hcard
    cases todo with
    | nil =>
      rw [Game.sl_nil]
      simp
    | cons p rest =>
      cases hpn : g.processNeighbors color (p.neighbors g.size) rest
          (struct ++ [p]) with
      | none =>
        rw [Game.sl_succ_none fuel hpn]
        simp
      | some todo' =>
        rw [Game.sl_succ_some fuel hpn]
        apply ih todo' (struct ++ [p]) (Game.loopInv_step inv hpn)
        rw [List.length_append, List.length_singleton]
        omega

/- Shared correctness lemmas for is_surrounded. -/

theorem Game.is_surrounded_some_spec {g : Game} {p : Pos} {c : Stone}
    {l : List Pos} (h : g.is_surrounded p = some (c, l)) :
    g.stone_at p = some c ∧ (∀ q, q ∈ l ↔ g.inGroup c p q) ∧ l.Nodup ∧
    g.groupNoLiberties c p := by
  unfold Game.is_surrounded at h
  cases hst : g.stone_at p with
  | none =>
    simp only [hst] at h
    exact absurd h (by simp)
  | some color =>
    simp only [hst] at h
    cases hloop : g.surroundLoop color (g.size * g.size) [p] [] with
    | notSurrounded =>
      simp only [hloop] at h
      exact absurd h (by simp)
    | outOfFuel =>
      simp only [hloop] at h
      exact absurd h (by simp)
    | surrounded struct =>
      simp only [hloop, Option.some.injEq, Prod.mk.injEq] at h
      obtain ⟨hceq, hleq⟩ := h
      subst hceq
      subst hleq
      obtain ⟨S1, S2, S3, S4⟩ :=
        Game.sl_surrounded_spec (g.size * g.size) [p] [] struct
          (Game.loopInv_init hst) hloop
      refine ⟨rfl, S2, S3, ?_⟩
      intro q hq n hn
      exact S4 q ((S2 q).mpr hq) n hn

theorem Game.is_surrounded_none_noLib {g : Game} {p : Pos} {c : Stone}
    (hc : g.stone_at p = some c) (h : g.is_surrounded p = none) :
    ¬ g.groupNoLiberties c p := by
  unfold Game.is_surrounded at h
  simp only [hc] at h
  cases hloop : g.surroundLoop c (g.size * g.size) [p] [] with
  | surrounded struct =>
    simp only [hloop] at h
    exact absurd h (by simp)
  | notSurrounded =>
    exact Game.sl_notSurrounded_spec (g.size * g.size) [p] []
      (Game.loopInv_init hc) hloop
  | outOfFuel =>
    exfalso
    apply Game.sl_fuel_spec (g.size * g.size) [p] [] (Game.loopInv_init hc)
      (by simpa using validFinset_card_le g.size)
    exact hloop

theorem Game.is_surrounded_complete {g : Game} {p : Pos} {c : Stone}
    (hc : g.stone_at p = some c) (hnl : g.groupNoLiberties c p) :
    ∃ l, g.is_surrounded p = some (c, l) := by
  cases hr : g.is_surrounded p with
  | none => exact absurd hnl (Game.is_surrounded_none_noLib hc hr)
  | some v =>
    cases v with
    | mk c' l =>
      obtain ⟨hst, _, _, _⟩ := Game.is_surrounded_some_spec hr
      rw [hst] at hc
      cases hc
      exact ⟨l, rfl⟩

theorem Game.is_surrounded_of_empty {g : Game} {p : Pos}
    (h : g.stone_at p = none) : g.is_surrounded p = none := by
  unfold Game.is_surrounded
  rw [h]

/- Stone and Captures helper lemmas. -/

theorem Stone.neg_ne (c : Stone) : -c ≠ c := by
  cases c <;> simp [Neg.neg, Stone.neg]

theorem Stone.neg_neg_eq (c : Stone) : - -c = c := by
  cases c <;> rfl

theorem Captures.get_add_self (cs : Captures) (c : Stone) (n : Nat) :
    (cs.add c n).get c = cs.get c + n := by
  cases c <;> rfl

theorem Captures.get_add_other (cs : Captures) {c d : Stone} (h : d ≠ c)
    (n : Nat) : (cs.add c n).get d = cs.get d := by
  cases c <;> cases d <;> first | rfl | exact absurd rfl h

theorem Captures.get_le_add (cs : Captures) (c d : Stone) (n : Nat) :
    cs.get d ≤ (cs.add c n).get d := by
  cases c <;> cases d <;> simp [Captures.add, Captures.get]

/- Removal never adds stones. -/

theorem removeAll_getElem?_cases (s : Nat) (l : List Pos) (b : Board) (j : Nat) :
    (removeAll s l b)[j]? = b[j]? ∨ (removeAll s l b)[j]? = some none := by
  induction l generalizing b with
  | nil => exact Or.inl rfl
  | cons r l ih =>
    cases hr : r.index s with
    | none =>
      rw [removeAll_cons_none hr]
      exact ih b
    | some i =>
      rw [removeAll_cons_some hr]
      rcases ih (b.set i none) with h | h
      · by_cases hij : i = j
        · subst hij
          by_cases hlt : i < b.length
          · right
            rw [h]
            exact List.getElem?_set_eq_of_lt none hlt
          · left
            rw [h]
            rw [List.getElem?_eq_none (by rw [List.length_set]; omega)]
            rw [List.getElem?_eq_none (by omega)]
        · left
          rw [h]
          exact List.getElem?_set_ne hij
      · exact Or.inr h

theorem Game.remove_stone_mono {g : Game} {p q : Pos} {c' : Stone}
    (h : (g.remove_if_surrounded p).stone_at q = some c') :
    g.stone_at q = some c' := by
  cases his : g.is_surrounded p with
  | none =>
    rw [Game.remove_if_surrounded_eq_none his] at h
    exact h
  | some v =>
    cases v with
    | mk c l =>
      rw [Game.remove_if_surrounded_eq_some his] at h
      unfold Game.stone_at at h ⊢
      simp only at h
      cases hj : q.index g.size with
      | none =>
        rw [hj] at h
        exact absurd h (by simp)
      | some j =>
        simp only [hj] at h ⊢
        rw [List.getD_eq_getElem?_getD] at h ⊢
        rcases removeAll_getElem?_cases g.size l g.state.board j with hc | hc
        · rw [hc] at h
          exact h
        · rw [hc] at h
          exact absurd h (by simp)

/-- Every member of a surrounded structure reads empty after the removal. -/
theorem Game.remove_stone_at_mem {g : Game} {p q : Pos} {c : Stone}
    {l : List Pos} (his : g.is_surrounded p = some (c, l)) (hq : q ∈ l) :
    (g.remove_if_surrounded p).stone_at q = none := by
  obtain ⟨hst, hiff, hnd, hnl⟩ := Game.is_surrounded_some_spec his
  have hqc : g.stone_at q = some c :=
    Game.inGroup_stone hst ((hiff q).mp hq)
  obtain ⟨j, hj⟩ := Game.stone_at_index hqc
  exact Game.stone_at_removeAll_of_mem hq hj (g.remove_if_surrounded p)
    (Game.remove_if_surrounded_size g p)
    (by rw [Game.remove_if_surrounded_eq_some his])

/-- Stones of a different color than the removed structure are untouched. -/
theorem Game.remove_stone_at_othercolor {g : Game} {p q : Pos} {c d : Stone}
    {l : List Pos} (his : g.is_surrounded p = some (c, l))
    (hq : g.stone_at q = some d) (hd : d ≠ c) :
    (g.remove_if_surrounded p).stone_at q = some d := by
  obtain ⟨hst, hiff, hnd, hnl⟩ := Game.is_surrounded_some_spec his
  have hres : (g.remove_if_surrounded p).stone_at q = g.stone_at q := by
    apply Game.stone_at_removeAll_of_not_hit ?_ (g.remove_if_surrounded p)
      (Game.remove_if_surrounded_size g p)
      (by rw [Game.remove_if_surrounded_eq_some his])
    intro r hr
    left
    intro he
    have hrc : g.stone_at r = some c :=
      Game.inGroup_stone hst ((hiff r).mp hr)
    obtain ⟨jr, hjr⟩ := Game.stone_at_index hrc
    obtain ⟨jq, hjq⟩ := Game.stone_at_index hq
    rw [hjr, hjq] at he
    cases he
    unfold Game.stone_at at hrc hq
    rw [hjr] at hrc
    rw [hjq] at hq
    rw [hrc] at hq
    cases hq
    exact hd rfl
  rw [hres]
  exact hq

/-- With an i32-representable size, positions outside the removed structure
are untouched by the removal. -/
theorem Game.remove_stone_at_not_mem {g : Game} {p q : Pos} {c : Stone}
    {l : List Pos} (h0 : g.size < 2147483648)
    (his : g.is_surrounded p = some (c, l)) (hq : q ∉ l) :
    (g.remove_if_surrounded p).stone_at q = (g.stone_at q) := by
  obtain ⟨hst, hiff, hnd, hnl⟩ := Game.is_surrounded_some_spec his
  apply Game.stone_at_removeAll_of_not_hit ?_ (g.remove_if_surrounded p)
    (Game.remove_if_surrounded_size g p)
    (by rw [Game.remove_if_surrounded_eq_some his])
  intro r hr
  cases hjq : q.index g.size with
  | none => exact Or.inr rfl
  | some jq =>
    left
    intro he
    have hrc : g.stone_at r = some c :=
      Game.inGroup_stone hst ((hiff r).mp hr)
    have hrv : r.valid g.size = true := Game.stone_at_valid hrc
    have hqv : q.valid g.size = true := Pos.index_valid hjq
    have hrq : r = q := Pos.index_inj h0 hrv hqv (he.trans hjq.symm)
    exact hq (hrq ▸ hr)

/- Group and liberty preservation under removal of a disjoint group. -/

theorem Game.inGroup_mono {g g' : Game} {color : Stone} {p q : Pos}
    (hsz : g'.size = g.size)
    (hsub : ∀ r, g'.stone_at r = some color → g.stone_at r = some color)
    (h : g'.inGroup color p q) : g.inGroup color p q := by
  induction h with
  | refl => exact Relation.ReflTransGen.refl
  | tail hmid hstep ih =>
    rename_i m r
    refine Relation.ReflTransGen.tail ih ⟨?_, hsub r hstep.2⟩
    rw [← hsz]
    exact hstep.1

theorem Game.remove_group_preserved {g : Game} {np q : Pos} {c : Stone}
    {l : List Pos} (h0 : g.size < 2147483648)
    (his : g.is_surrounded np = some (c, l))
    (hq : g.stone_at q = some c) (hdisj : ¬ g.inGroup c np q) :
    (∀ r, (g.remove_if_surrounded np).inGroup c q r ↔ g.inGroup c q r) ∧
    (g.remove_if_surrounded np).stone_at q = some c := by
  obtain ⟨hst, hiff, hnd, hnl⟩ := Game.is_surrounded_some_spec his
  have hqnot : q ∉ l := fun hmem => hdisj ((hiff q).mp hmem)
  have hqpres : (g.remove_if_surrounded np).stone_at q = some c := by
    rw [Game.remove_stone_at_not_mem h0 his hqnot]
    exact hq
  have havoid : ∀ r, g.inGroup c q r → r ∉ l := by
    intro r hr hmem
    have h1 : g.inGroup c np r := (hiff r).mp hmem
    have hrq : g.inGroup c r q := Game.inGroup_symm hq hr
    exact hdisj (Game.inGroup_trans h1 hrq)
  refine ⟨?_, hqpres⟩
  intro r
  constructor
  · intro h
    exact Game.inGroup_mono (Game.remove_if_surrounded_size g np)
      (fun r' hr' => Game.remove_stone_mono hr') h
  · intro h
    induction h with
    | refl => exact Relation.ReflTransGen.refl
    | tail hmid hstep ih =>
      rename_i m r
      have hrg : g.inGroup c q r := Relation.ReflTransGen.tail hmid hstep
      have hrnot : r ∉ l := havoid r hrg
      have hrpres : (g.remove_if_surrounded np).stone_at r = some c := by
        rw [Game.remove_stone_at_not_mem h0 his hrnot]
        exact hstep.2
      refine Relation.ReflTransGen.tail ih ⟨?_, hrpres⟩
      rw [Game.remove_if_surrounded_size]
      exact hstep.1

theorem Game.remove_noLib_preserved {g : Game} {np q : Pos} {c : Stone}
    {l : List Pos} (h0 : g.size < 2147483648)
    (his : g.is_surrounded np = some (c, l))
    (hq : g.stone_at q = some c) (hdisj : ¬ g.inGroup c np q)
    (hnlq : g.groupNoLiberties c q) :
    (g.remove_if_surrounded np).groupNoLiberties c q := by
  obtain ⟨hst, hiff, hnd, hnl⟩ := Game.is_surrounded_some_spec his
  obtain ⟨hpres, hqpres⟩ := Game.remove_group_preserved h0 his hq hdisj
  intro r hr n hn
  have hrg : g.inGroup c q r := (hpres r).mp hr
  have hn' : n ∈ r.neighbors g.size := by
    rw [← Game.remove_if_surrounded_size g np]
    exact hn
  have hstone_n : g.has_stone_at n = true := hnlq r hrg n hn'
  have hnnot : n ∉ l := by
    intro hmem
    have hnc : g.stone_at n = some c := Game.inGroup_stone hst ((hiff n).mp hmem)
    have hqn : g.inGroup c q n := Relation.ReflTransGen.tail hrg ⟨hn', hnc⟩
    have h1 : g.inGroup c np n := (hiff n).mp hmem
    exact hdisj (Game.inGroup_trans h1 (Game.inGroup_symm hq hqn))
  rw [Game.has_stone_at_true_iff] at hstone_n ⊢
  rw [Game.remove_stone_at_not_mem h0 his hnnot]
  exact hstone_n

/-- The opponent-resolution fold of `try_place_stone` over an arbitrary
list of positions; `resolveOpponents` is this fold over the placed stone's
neighbors. -/
def Game.resolveList (g : Game) (l : List Pos) : Game :=
  l.foldl
    (fun h np =>
      if h.stone_at np == some (-h.turn) then h.remove_if_surrounded np else h)
    g

theorem Game.resolveOpponents_eq_resolveList (g : Game) (p : Pos) :
    g.resolveOpponents p = g.resolveList (p.neighbors g.size) := rfl

theorem Game.resolveList_nil (g : Game) : g.resolveList [] = g := rfl

theorem Game.resolveList_cons_hit {g : Game} {np : Pos}
    (h : g.stone_at np = some (-g.turn)) (l : List Pos) :
    g.resolveList (np :: l) = (g.remove_if_surrounded np).resolveList l := by
  unfold Game.resolveList
  rw [List.foldl_cons]
  have hb : (g.stone_at np == some (-g.turn)) = true := by
    rw [beq_iff_eq]
    exact h
  rw [hb]
  rfl

theorem Game.resolveList_cons_skip {g : Game} {np : Pos}
    (h : ¬ g.stone_at np = some (-g.turn)) (l : List Pos) :
    g.resolveList (np :: l) = g.resolveList l := by
  unfold Game.resolveList
  rw [List.foldl_cons]
  have hb : (g.stone_at np == some (-g.turn)) = false := by
    rw [beq_eq_false_iff_ne]
    exact h
  rw [hb]
  rfl

theorem Game.resolveList_size (g : Game) (l : List Pos) :
    (g.resolveList l).size = g.size := by
  induction l generalizing g with
  | nil => rfl
  | cons np l ih =>
    by_cases h : g.stone_at np = some (-g.turn)
    · rw [Game.resolveList_cons_hit h, ih, Game.remove_if_surrounded_size]
    · rw [Game.resolveList_cons_skip h, ih]

theorem Game.resolveList_turn (g : Game) (l : List Pos) :
    (g.resolveList l).turn = g.turn := by
  induction l generalizing g with
  | nil => rfl
  | cons np l ih =>
    by_cases h : g.stone_at np = some (-g.turn)
    · rw [Game.resolveList_cons_hit h, ih, Game.remove_if_surrounded_turn]
    · rw [Game.resolveList_cons_skip h, ih]

theorem Game.resolveList_history (g : Game) (l : List Pos) :
    (g.resolveList l).history = g.history := by
  induction l generalizing g with
  | nil => rfl
  | cons np l ih =>
    by_cases h : g.stone_at np = some (-g.turn)
    · rw [Game.resolveList_cons_hit h, ih, Game.remove_if_surrounded_history]
    · rw [Game.resolveList_cons_skip h, ih]

theorem Game.resolveList_stone_mono {q : Pos} {c' : Stone} :
    ∀ (l : List Pos) (g : Game),
    (g.resolveList l).stone_at q = some c' → g.stone_at q = some c' := by
  intro l
  induction l with
  | nil =>
    intro g h
    rw [Game.resolveList_nil] at h
    exact h
  | cons np l ih =>
    intro g h
    by_cases hg : g.stone_at np = some (-g.turn)
    · rw [Game.resolveList_cons_hit hg] at h
      exact Game.remove_stone_mono (ih _ h)
    · rw [Game.resolveList_cons_skip hg] at h
      exact ih _ h

theorem Game.resolveList_none_stable {q : Pos} {l : List Pos} {g : Game}
    (h : g.stone_at q = none) : (g.resolveList l).stone_at q = none := by
  cases hr : (g.resolveList l).stone_at q with
  | none => rfl
  | some c' =>
    have := Game.resolveList_stone_mono l g hr
    rw [h] at this
    exact absurd this (by simp)

theorem Game.resolveList_othercolor {q : Pos} {d : Stone} :
    ∀ (l : List Pos) (g : Game),
    g.stone_at q = some d → d ≠ -g.turn →
    (g.resolveList l).stone_at q = some d := by
  intro l
  induction l with
  | nil =>
    intro g h hd
    rw [Game.resolveList_nil]
    exact h
  | cons np l ih =>
    intro g h hd
    by_cases hg : g.stone_at np = some (-g.turn)
    · rw [Game.resolveList_cons_hit hg]
      cases his : g.is_surrounded np with
      | none =>
        rw [Game.remove_if_surrounded_eq_none his]
        exact ih g h hd
      | some v =>
        cases v with
        | mk c lrem =>
          have hst := (Game.is_surrounded_some_spec his).1
          rw [hg] at hst
          cases hst
          have hq' : (g.remove_if_surrounded np).stone_at q = some d :=
            Game.remove_stone_at_othercolor his h hd
          apply ih _ hq'
          rw [Game.remove_if_surrounded_turn]
          exact hd
    · rw [Game.resolveList_cons_skip hg]
      exact ih g h hd

theorem Game.resolveList_captures_mono (d : Stone) :
    ∀ (l : List Pos) (g : Game),
    g.state.captures.get d ≤ (g.resolveList l).state.captures.get d := by
  intro l
  induction l with
  | nil =>
    intro g
    rw [Game.resolveList_nil]
  | cons np l ih =>
    intro g
    by_cases hg : g.stone_at np = some (-g.turn)
    · rw [Game.resolveList_cons_hit hg]
      refine le_trans ?_ (ih (g.remove_if_surrounded np))
      cases his : g.is_surrounded np with
      | none => rw [Game.remove_if_surrounded_eq_none his]
      | some v =>
        cases v with
        | mk c lrem =>
          rw [Game.remove_if_surrounded_eq_some his]
          exact Captures.get_le_add g.state.captures c d lrem.length
    · rw [Game.resolveList_cons_skip hg]
      exact ih g

/-- If no scanned position holds a surrounded opponent group, the
opponent-resolution fold changes nothing. -/
theorem Game.resolveList_id_of_no_captures :
    ∀ (l : List Pos) (g : Game),
    (∀ np ∈ l, g.stone_at np = some (-g.turn) →
       ¬ g.groupNoLiberties (-g.turn) np) →
    g.resolveList l = g := by
  intro l
  induction l with
  | nil =>
    intro g hno
    rfl
  | cons np l ih =>
    intro g hno
    by_cases hg : g.stone_at np = some (-g.turn)
    · rw [Game.resolveList_cons_hit hg]
      cases his : g.is_surrounded np with
      | none =>
        rw [Game.remove_if_surrounded_eq_none his]
        exact ih g (fun r hr => hno r (List.mem_cons_of_mem np hr))
      | some v =>
        cases v with
        | mk c lrem =>
          exfalso
          obtain ⟨hst, _, _, hnl⟩ := Game.is_surrounded_some_spec his
          rw [hg] at hst
          cases hst
          exact hno np (List.mem_cons_self np l) hg hnl
    · rw [Game.resolveList_cons_skip hg]
      exact ih g (fun r hr => hno r (List.mem_cons_of_mem np hr))

/-- Removal of a whole opponent group through the fold: when the scanned
list contains a member of a liberty-free opponent group, every stone of
that group ends up removed. -/
theorem Game.resolveList_removes :
    ∀ (l : List Pos) (g : Game) (P : Pos → Prop) (np0 : Pos),
    g.size < 2147483648 →
    np0 ∈ l →
    ((∀ q, P q → g.stone_at q = none) ∨
      (g.stone_at np0 = some (-g.turn) ∧ g.groupNoLiberties (-g.turn) np0 ∧
       (∀ q, P q ↔ g.inGroup (-g.turn) np0 q))) →
    ∀ q, P q → (g.resolveList l).stone_at q = none := by
  intro l
  induction l with
  | nil =>
    intro g P np0 h0 hmem
    exact absurd hmem (by simp)
  | cons np l ih =>
    intro g P np0 h0 hmem hstate q hPq
    rcases hstate with hrem | ⟨hstone, hnl, hPiff⟩
    · exact Game.resolveList_none_stable (hrem q hPq)
    · by_cases hg : g.stone_at np = some (-g.turn)
      · rw [Game.resolveList_cons_hit hg]
        cases his : g.is_surrounded np with
        | none =>
          rw [Game.remove_if_surrounded_eq_none his]
          have hne : np ≠ np0 := by
            intro he
            subst he
            obtain ⟨lr, hlr⟩ := Game.is_surrounded_complete hg
              (by
                rw [hg] at hstone
                cases hstone
                exact hnl)
            rw [his] at hlr
            exact absurd hlr (by simp)
          have hmem' : np0 ∈ l := by
            rcases List.mem_cons.mp hmem with he | hm
            · exact absurd he.symm hne
            · exact hm
          exact ih g P np0 h0 hmem' (Or.inr ⟨hstone, hnl, hPiff⟩) q hPq
        | some v =>
          cases v with
          | mk c lrem =>
            obtain ⟨hst, hiffr, hndr, hnlr⟩ := Game.is_surrounded_some_spec his
            rw [hg] at hst
            cases hst
            by_cases hmem0 : np0 ∈ lrem
            · have hinG : g.inGroup (-g.turn) np np0 := (hiffr np0).mp hmem0
              have hq_lrem : q ∈ lrem := by
                rw [hiffr q]
                exact Game.inGroup_trans hinG ((hPiff q).mp hPq)
              exact Game.resolveList_none_stable
                (Game.remove_stone_at_mem his hq_lrem)
            · have hdisj : ¬ g.inGroup (-g.turn) np np0 := by
                intro h
                exact hmem0 ((hiffr np0).mpr h)
              obtain ⟨hpres, hstone'⟩ :=
                Game.remove_group_preserved h0 his hstone hdisj
              have hnl' : (g.remove_if_surrounded np).groupNoLiberties
                  (-g.turn) np0 :=
                Game.remove_noLib_preserved h0 his hstone hdisj hnl
              have hne : np ≠ np0 := by
                intro he
                subst he
                exact hdisj (Game.inGroup_refl g (-g.turn) np)
              have hmem' : np0 ∈ l := by
                rcases List.mem_cons.mp hmem with he | hm
                · exact absurd he.symm hne
                · exact hm
              have hturn : (g.remove_if_surrounded np).turn = g.turn :=
                Game.remove_if_surrounded_turn g np
              apply ih (g.remove_if_surrounded np) P np0
                (by rw [Game.remove_if_surrounded_size]; exact h0) hmem'
              · right
                refine ⟨?_, ?_, ?_⟩
                · rw [hturn]
                  exact hstone'
                · rw [hturn]
                  exact hnl'
                · intro r
                  rw [hturn]
                  rw [hPiff r]
                  exact (hpres r).symm
              · exact hPq
      · rw [Game.resolveList_cons_skip hg]
        have hne : np ≠ np0 := by
          intro he
          subst he
          exact hg hstone
        have hmem' : np0 ∈ l := by
          rcases List.mem_cons.mp hmem with he | hm
          · exact absurd he.symm hne
          · exact hm
        exact ih g P np0 h0 hmem' (Or.inr ⟨hstone, hnl, hPiff⟩) q hPq

/-- Exact tally bookkeeping of the fold when exactly one opponent group is
captured: the scanned list contains a member of the liberty-free group of
`np0`, and every other scanned opponent stone belongs to a group with a
liberty. -/
theorem Game.resolveList_single_capture :
    ∀ (l : List Pos) (g : Game) (np0 : Pos),
    g.size < 2147483648 →
    np0 ∈ l →
    g.stone_at np0 = some (-g.turn) →
    g.groupNoLiberties (-g.turn) np0 →
    (∀ np ∈ l, g.stone_at np = some (-g.turn) →
       ¬ g.inGroup (-g.turn) np0 np → ¬ g.groupNoLiberties (-g.turn) np) →
    ∃ lrem : List Pos, lrem.Nodup ∧
      (∀ q, q ∈ lrem ↔ g.inGroup (-g.turn) np0 q) ∧
      (g.resolveList l).state.captures =
        g.state.captures.add (-g.turn) lrem.length ∧
      (∀ q, g.inGroup (-g.turn) np0 q →
        (g.resolveList l).stone_at q = none) := by
  intro l
  induction l with
  | nil =>
    intro g np0 h0 hmem
    exact absurd hmem (by simp)
  | cons np l ih =>
    intro g np0 h0 hmem hstone0 hnl0 honly
    by_cases hg : g.stone_at np = some (-g.turn)
    · rw [Game.resolveList_cons_hit hg]
      cases his : g.is_surrounded np with
      | none =>
        rw [Game.remove_if_surrounded_eq_none his]
        have hne : np ≠ np0 := by
          intro he
          subst he
          obtain ⟨lr, hlr⟩ := Game.is_surrounded_complete hg
            (by
              rw [hg] at hstone0
              cases hstone0
              exact hnl0)
          rw [his] at hlr
          exact absurd hlr (by simp)
        have hmem' : np0 ∈ l := by
          rcases List.mem_cons.mp hmem with he | hm
          · exact absurd he.symm hne
          · exact hm
        exact ih g np0 h0 hmem' hstone0 hnl0
          (fun r hr => honly r (List.mem_cons_of_mem np hr))
      | some v =>
        cases v with
        | mk c lrem =>
          obtain ⟨hst, hiffr, hndr, hnlr⟩ := Game.is_surrounded_some_spec his
          rw [hg] at hst
          cases hst
          by_cases hinG : g.inGroup (-g.turn) np0 np
          · have hsymm : g.inGroup (-g.turn) np np0 :=
              Game.inGroup_symm hstone0 hinG
            have hiff' : ∀ q, q ∈ lrem ↔ g.inGroup (-g.turn) np0 q := by
              intro q
              rw [hiffr q]
              constructor
              · intro h
                exact Game.inGroup_trans hinG h
              · intro h
                exact Game.inGroup_trans hsymm h
            have hturn : (g.remove_if_surrounded np).turn = g.turn :=
              Game.remove_if_surrounded_turn g np
            have hB : ((g.remove_if_surrounded np).resolveList l) =
                g.remove_if_surrounded np := by
              apply Game.resolveList_id_of_no_captures
              intro np' h' hstone1
              rw [hturn] at hstone1
              have hstoneg : g.stone_at np' = some (-g.turn) :=
                Game.remove_stone_mono hstone1
              have hnp'notin : np' ∉ lrem := by
                intro hm
                have hrm := Game.remove_stone_at_mem his hm
                rw [hrm] at hstone1
                exact absurd hstone1 (by simp)
              have hdisj_np : ¬ g.inGroup (-g.turn) np np' := by
                intro h
                exact hnp'notin ((hiffr np').mpr h)
              have hdisj0 : ¬ g.inGroup (-g.turn) np0 np' := by
                intro h
                exact hdisj_np (Game.inGroup_trans hsymm h)
              have honly' : ¬ g.groupNoLiberties (-g.turn) np' :=
                honly np' (List.mem_cons_of_mem np h') hstoneg hdisj0
              rw [hturn]
              intro hnlib1
              apply honly'
              intro r hr n hn
              have hpres :=
                (Game.remove_group_preserved h0 his hstoneg hdisj_np).1
              have hr1 : (g.remove_if_surrounded np).inGroup (-g.turn) np' r :=
                (hpres r).mpr hr
              have hn1 : n ∈ r.neighbors (g.remove_if_surrounded np).size := by
                rw [Game.remove_if_surrounded_size]
                exact hn
              have hhs1 := hnlib1 r hr1 n hn1
              rw [Game.has_stone_at_true_iff] at hhs1 ⊢
              intro hcontra
              apply hhs1
              cases hsn : (g.remove_if_surrounded np).stone_at n with
              | none => rfl
              | some d =>
                have := Game.remove_stone_mono hsn
                rw [hcontra] at this
                exact absurd this (by simp)
            rw [hB]
            refine ⟨lrem, hndr, hiff', ?_, ?_⟩
            · rw [Game.remove_if_surrounded_eq_some his]
            · intro q hq
              exact Game.remove_stone_at_mem his ((hiff' q).mpr hq)
          · exfalso
            exact honly np (List.mem_cons_self np l) hg hinG hnlr
    · rw [Game.resolveList_cons_skip hg]
      have hne : np ≠ np0 := by
        intro he
        subst he
        exact hg hstone0
      have hmem' : np0 ∈ l := by
        rcases List.mem_cons.mp hmem with he | hm
        · exact absurd he.symm hne
        · exact hm
      exact ih g np0 h0 hmem' hstone0 hnl0
        (fun r hr => honly r (List.mem_cons_of_mem np hr))

/- Executor assembly lemmas. -/

theorem Game.pushSet_size (g : Game) (i : Nat) :
    ((g.pushHistory).setStone i).size = g.size := rfl

theorem Game.pushSet_turn (g : Game) (i : Nat) :
    ((g.pushHistory).setStone i).turn = g.turn := rfl

theorem Game.pushSet_history (g : Game) (i : Nat) :
    ((g.pushHistory).setStone i).history = g.state :: g.history := rfl

theorem Game.pushSet_captures (g : Game) (i : Nat) :
    ((g.pushHistory).setStone i).state.captures = g.state.captures := rfl

theorem Game.pushSet_board (g : Game) (i : Nat) :
    ((g.pushHistory).setStone i).state.board =
      g.state.board.set i (some g.turn) := rfl

theorem Game.pushSet_stone_at_self {g : Game} {p : Pos} {i : Nat}
    (h1 : p.index g.size = some i) (hlt : i < g.state.board.length) :
    ((g.pushHistory).setStone i).stone_at p = some g.turn := by
  unfold Game.stone_at
  have hsz : ((g.pushHistory).setStone i).size = g.size := rfl
  rw [hsz]
  simp only [h1]
  rw [Game.pushSet_board, List.getD_eq_getElem?_getD,
    List.getElem?_set_self hlt]
  rfl

theorem Game.pushSet_stone_at_other {g : Game} {q : Pos} {i : Nat}
    (h : q.index g.size ≠ some i) :
    ((g.pushHistory).setStone i).stone_at q = g.stone_at q := by
  unfold Game.stone_at
  have hsz : ((g.pushHistory).setStone i).size = g.size := rfl
  rw [hsz]
  cases hj : q.index g.size with
  | none => rfl
  | some j =>
    simp only
    rw [Game.pushSet_board, List.getD_eq_getElem?_getD,
      List.getD_eq_getElem?_getD, List.getElem?_set_ne]
    intro he
    rw [hj] at h
    exact h (by rw [he])

theorem Game.try_place_eq {g : Game} {p : Pos} {i : Nat}
    (h1 : p.index g.size = some i) (h2 : g.has_stone_at p = false) :
    g.try_place_stone p = (g.preKo p i).applyKo := by
  unfold Game.try_place_stone
  simp only [h1, h2]
  rfl

theorem Game.try_place_noop_invalid {g : Game} {p : Pos}
    (h : p.index g.size = none) : g.try_place_stone p = g := by
  unfold Game.try_place_stone
  simp only [h]

theorem Game.try_place_noop_occupied {g : Game} {p : Pos}
    (h2 : g.has_stone_at p = true) : g.try_place_stone p = g := by
  unfold Game.try_place_stone
  cases h1 : p.index g.size with
  | none => rfl
  | some i => simp only [h2, if_true]

theorem Game.applyKo_ko {g : Game} {s : GameState} {rest : List GameState}
    (hk : g.koTriggered = true) (hh : g.history = s :: rest) :
    g.applyKo = { g with state := s, history := rest } := by
  unfold Game.applyKo
  rw [hk]
  simp only [if_true]
  rw [hh]

theorem Game.applyKo_not {g : Game} (hk : g.koTriggered = false) :
    g.applyKo = { g with turn := -g.turn } := by
  unfold Game.applyKo
  rw [hk]
  simp

theorem Game.koTriggered_cons {g4 : Game} {s : GameState}
    {rest : List GameState} (hh : g4.history = s :: rest) :
    g4.koTriggered =
      (rest.head?.map (fun st => st.board) == some g4.state.board) := by
  unfold Game.koTriggered
  rw [hh]
  cases rest with
  | nil => simp
  | cons r rest' => simp

theorem Game.preKo_unfold (g : Game) (p : Pos) (i : Nat) :
    g.preKo p i =
      (((g.pushHistory).setStone i).resolveList
        (p.neighbors g.size)).remove_if_surrounded p := by
  unfold Game.preKo
  rw [Game.resolveOpponents_eq_resolveList]
  rfl

theorem Game.preKo_captures_mono (g : Game) (p : Pos) (i : Nat) (d : Stone) :
    g.state.captures.get d ≤ (g.preKo p i).state.captures.get d := by
  rw [Game.preKo_unfold]
  have h1 : g.state.captures.get d ≤
      (((g.pushHistory).setStone i).resolveList
        (p.neighbors g.size)).state.captures.get d := by
    have := Game.resolveList_captures_mono d (p.neighbors g.size)
      ((g.pushHistory).setStone i)
    rw [Game.pushSet_captures] at this
    exact this
  refine le_trans h1 ?_
  cases his : (((g.pushHistory).setStone i).resolveList
      (p.neighbors g.size)).is_surrounded p with
  | none => rw [Game.remove_if_surrounded_eq_none his]
  | some v =>
    cases v with
    | mk c lrem =>
      rw [Game.remove_if_surrounded_eq_some his]
      exact Captures.get_le_add _ c d lrem.length

/- Small helpers for the claim proofs. -/

theorem Game.ext' {G H : Game} (h1 : G.size = H.size) (h2 : G.turn = H.turn)
    (h3 : G.state = H.state) (h4 : G.history = H.history) : G = H := by
  cases G
  cases H
  congr

theorem Game.remove_none_stable {g : Game} {p q : Pos}
    (h : g.stone_at q = none) :
    (g.remove_if_surrounded p).stone_at q = none := by
  cases hr : (g.remove_if_surrounded p).stone_at q with
  | none => rfl
  | some c' =>
    have := Game.remove_stone_mono hr
    rw [h] at this
    exact absurd this (by simp)

theorem Game.inGroup_singleton {g : Game} {c : Stone} {a q : Pos}
    (hno : ∀ b ∈ a.neighbors g.size, g.stone_at b ≠ some c)
    (h : g.inGroup c a q) : q = a := by
  induction h with
  | refl => rfl
  | tail hmid hstep ih =>
    rename_i m r
    subst ih
    exact absurd hstep.2 (hno r hstep.1)

theorem Game.groupNoLiberties_singleton {g : Game} {c : Stone} {a : Pos}
    (hno : ∀ b ∈ a.neighbors g.size, g.stone_at b ≠ some c)
    (hstones : ∀ n ∈ a.neighbors g.size, g.has_stone_at n = true) :
    g.groupNoLiberties c a := by
  intro q hq n hn
  have hq' : q = a := Game.inGroup_singleton hno hq
  subst hq'
  exact hstones n hn

/-- Decidable sufficient condition for a liberty-free singleton group:
every neighbor is occupied and none holds the group's color. -/
theorem Game.groupNoLiberties_check {g : Game} {c : Stone} {a : Pos}
    (h : ((a.neighbors g.size).all
      (fun b => (g.stone_at b != some c) && g.has_stone_at b)) = true) :
    g.groupNoLiberties c a := by
  rw [List.all_eq_true] at h
  apply Game.groupNoLiberties_singleton
  · intro b hb
    have := h b hb
    rw [Bool.and_eq_true] at this
    have h1 := this.1
    rw [bne_iff_ne] at h1
    exact h1
  · intro n hn
    have := h n hn
    rw [Bool.and_eq_true] at this
    exact this.2

theorem ncard_of_list {P : Pos → Prop} {lrem : List Pos}
    (hnd : lrem.Nodup) (hiff : ∀ q, q ∈ lrem ↔ P q) :
    Set.ncard {q | P q} = lrem.length := by
  have hset : {q | P q} = ↑lrem.toFinset := by
    ext q
    simp only [Set.mem_setOf_eq, Finset.coe_sort_coe, Finset.mem_coe,
      List.mem_toFinset]
    exact (hiff q).symm
  rw [hset, Set.ncard_coe_Finset, List.toFinset_card_of_nodup hnd]

theorem Game.stone_at_withTurn (G : Game) (t : Stone) (q : Pos) :
    (Game.mk G.size t G.state G.history).stone_at q = G.stone_at q := rfl

/- Claim theorems. -/

/-- Claim C4: when the position does not map to a valid board index, or the
cell is already occupied, try_place_stone is a no-op: the whole Game
(board, turn, capture tallies and history) is returned unchanged, and no
error is signaled. -/
theorem C4_invalid_or_occupied_noop (g : Game) (p : Pos)
    (h : p.index g.size = none ∨ g.has_stone_at p = true) :
    g.try_place_stone p = g := by
  rcases h with h | h
  · exact Game.try_place_noop_invalid h
  · exact Game.try_place_noop_occupied h

/-- Claim C4 witness: placing at the out-of-bounds point (5,5) of a fresh
2x2 game changes nothing. -/
theorem C4_witness :
    (Game.new 2).try_place_stone ⟨5, 5⟩ = Game.new 2 :=
  C4_invalid_or_occupied_noop (Game.new 2) ⟨5, 5⟩ (Or.inl (by decide))

/-- Claim C5: the turn flips exactly when the placement is accepted (valid
empty target whose resulting position does not trip the ko test); on a
no-op or a ko rejection the turn is unchanged. -/
theorem C5_turn_alternation (g : Game) (p : Pos) :
    (g.try_place_stone p).turn =
      (if g.placeAccepted p = true then -g.turn else g.turn) ∧
    ((g.try_place_stone p).turn = -g.turn ↔ g.placeAccepted p = true) := by
  have hmain : (g.try_place_stone p).turn =
      (if g.placeAccepted p = true then -g.turn else g.turn) := by
    cases h1 : p.index g.size with
    | none =>
      rw [Game.try_place_noop_invalid h1]
      unfold Game.placeAccepted
      simp [h1]
    | some i =>
      cases h2 : g.has_stone_at p with
      | true =>
        rw [Game.try_place_noop_occupied h2]
        unfold Game.placeAccepted
        simp [h1, h2]
      | false =>
        rw [Game.try_place_eq h1 h2]
        unfold Game.placeAccepted
        simp only [h1, h2, Bool.false_eq_true, if_false]
        cases hk : (g.preKo p i).koTriggered with
        | true =>
          rw [Game.applyKo_ko hk (Game.preKo_history g p i)]
          simp only [Bool.not_true]
          rw [if_neg (by simp)]
          exact Game.preKo_turn g p i
        | false =>
          rw [Game.applyKo_not hk]
          simp only [Bool.not_false, if_true]
          show -(g.preKo p i).turn = -g.turn
          rw [Game.preKo_turn]
  refine ⟨hmain, ?_⟩
  rw [hmain]
  cases hacc : g.placeAccepted p with
  | true => simp
  | false =>
    simp only [Bool.false_eq_true, if_false]
    constructor
    · intro h
      exact absurd h.symm (Stone.neg_ne g.turn)
    · intro h
      exact absurd h (by simp)

/-- Claim C9: capture tallies never decrease across a call to
try_place_stone, for either color, including across ko rollbacks. -/
theorem C9_captures_monotone (g : Game) (p : Pos) (c : Stone) :
    g.state.captures.get c ≤ (g.try_place_stone p).state.captures.get c := by
  cases h1 : p.index g.size with
  | none => rw [Game.try_place_noop_invalid h1]
  | some i =>
    cases h2 : g.has_stone_at p with
    | true => rw [Game.try_place_noop_occupied h2]
    | false =>
      rw [Game.try_place_eq h1 h2]
      cases hk : (g.preKo p i).koTriggered with
      | true =>
        rw [Game.applyKo_ko hk (Game.preKo_history g p i)]
      | false =>
        rw [Game.applyKo_not hk]
        exact Game.preKo_captures_mono g p i c

/-- Claim C10: the flood-fill work-list loop of is_surrounded, seeded at an
occupied position with fuel size*size, never exhausts its fuel — each board
cell is processed at most once. -/
theorem C10_floodfill_terminates (g : Game) (p : Pos) (c : Stone)
    (h : g.stone_at p = some c) :
    g.surroundLoop c (g.size * g.size) [p] [] ≠ .outOfFuel := by
  apply Game.sl_fuel_spec (g.size * g.size) [p] [] (Game.loopInv_init h)
  simpa using validFinset_card_le g.size

/-- Claim C10 witness: the loop terminates on a concrete occupied 1x1
board. -/
theorem C10_witness :
    (Game.mk 1 .White ⟨[some .White], ⟨0, 0⟩⟩ []).surroundLoop .White 1
      [⟨0, 0⟩] [] ≠ .outOfFuel :=
  C10_floodfill_terminates (Game.mk 1 .White ⟨[some .White], ⟨0, 0⟩⟩ [])
    ⟨0, 0⟩ .White (by decide)

/-- Claim C6: is_surrounded returns a color and group exactly when the
position is occupied and the maximal connected same-colored group through
it has zero liberties; the returned list is exactly that group and the
color is the stone's color; an unoccupied (or out-of-bounds) position
yields None. -/
theorem C6_is_surrounded_correct (g : Game) (p : Pos) :
    (∀ c l, g.is_surrounded p = some (c, l) →
      g.stone_at p = some c ∧ g.groupNoLiberties c p ∧
      (∀ q, q ∈ l ↔ g.inGroup c p q)) ∧
    (∀ c, g.stone_at p = some c → g.groupNoLiberties c p →
      ∃ l, g.is_surrounded p = some (c, l)) ∧
    (g.stone_at p = none → g.is_surrounded p = none) := by
  refine ⟨?_, ?_, ?_⟩
  · intro c l h
    obtain ⟨ha, hb, hn, hd⟩ := Game.is_surrounded_some_spec h
    exact ⟨ha, hd, hb⟩
  · intro c hc hnl
    exact Game.is_surrounded_complete hc hnl
  · intro h
    exact Game.is_surrounded_of_empty h

/-- Claim C6 witness: on a concrete board the resolver returns None for an
empty cell. -/
theorem C6_witness :
    (Game.new 2).is_surrounded ⟨1, 1⟩ = none :=
  (C6_is_surrounded_correct (Game.new 2) ⟨1, 1⟩).2.2 (by decide)

/-- Claim C8 counterexample: at size 2^31 the `size as i32` cast wraps to a
negative value, so the origin is rejected even though both coordinates lie
in [0, size). -/
theorem C8_counterexample :
    Pos.valid ⟨0, 0⟩ 2147483648 = false ∧
    ((0 : Int) ≤ 0 ∧ (0 : Int) < (2147483648 : Nat)) := by
  refine ⟨by decide, by constructor <;> decide⟩

/-- Claim C8 as amended: for board sizes representable in i32 (below 2^31,
so the `size as i32` cast and the usize index arithmetic do not wrap),
validity is exactly the coordinate-interval check, and index returns the
linear offset y*s+x exactly on valid positions, none otherwise. -/
theorem C8_bounds_amended (p : Pos) (s : Nat) (h0 : s < 2147483648) :
    (p.valid s = true ↔
      0 ≤ p.x ∧ p.x < (s : Int) ∧ 0 ≤ p.y ∧ p.y < (s : Int)) ∧
    (p.valid s = true → p.index s = some (p.y.toNat * s + p.x.toNat)) ∧
    (p.valid s = false → p.index s = none) := by
  refine ⟨?_, ?_, ?_⟩
  · rw [Pos.valid_iff, i32cast_eq_of_lt h0]
  · intro h
    exact Pos.index_nowrap h0 h
  · intro h
    unfold Pos.index
    simp [h]

/-- Claim C8 witness: bounds and index at a concrete valid position. -/
theorem C8_witness :
    (Pos.valid ⟨1, 2⟩ 3 = true ↔
      (0 : Int) ≤ 1 ∧ (1 : Int) < (3 : Nat) ∧ (0 : Int) ≤ 2 ∧ (2 : Int) < (3 : Nat)) ∧
    Pos.index ⟨1, 2⟩ 3 = some 7 := by
  have hA := C8_bounds_amended ⟨1, 2⟩ 3 (by decide)
  exact ⟨hA.1, hA.2.1 (by decide)⟩

/-- Claim C3 counterexample: on a 1x1 board, White's first placement is a
single-stone suicide, so the resulting board is identical to the board
immediately before the placement attempt; yet the move stands — the turn
flips and the capture tally changes — because the code compares against the
history entry two from the top (the state before the opponent's previous
move), which does not exist here, not against the state immediately before
this attempt. -/
theorem C3_counterexample :
    ((Game.new 1).try_place_stone ⟨0, 0⟩).state.board =
      (Game.new 1).state.board ∧
    ((Game.new 1).try_place_stone ⟨0, 0⟩).turn = .Black ∧
    (Game.new 1).turn = .White ∧
    ((Game.new 1).try_place_stone ⟨0, 0⟩).state.captures.get .White = 1 ∧
    (Game.new 1).state.captures.get .White = 0 := by
  decide

/-- Claim C3 as amended: for a valid empty target, if the board after
applying the placement and all capture resolution equals the board of the
history entry two from the top — which is the state before the opponent's
previous move, not the state immediately before this attempt — the move is
rejected: the Game is restored exactly (board, tallies, history, turn all
as before the call); otherwise the move stands and only the turn flips on
the fully resolved position.  When fewer than two history entries exist
the move always stands. -/
theorem C3_ko_rule (g : Game) (p : Pos) (i : Nat)
    (h1 : p.index g.size = some i) (h2 : g.has_stone_at p = false) :
    ((g.history.head?.map (fun st => st.board) =
        some (g.preKo p i).state.board) →
      g.try_place_stone p = g) ∧
    ((g.history.head?.map (fun st => st.board) ≠
        some (g.preKo p i).state.board) →
      g.try_place_stone p =
        Game.mk g.size (-g.turn) (g.preKo p i).state
          (g.state :: g.history)) := by
  have hh : (g.preKo p i).history = g.state :: g.history :=
    Game.preKo_history g p i
  have hkt := Game.koTriggered_cons hh
  constructor
  · intro hcond
    rw [Game.try_place_eq h1 h2]
    have hk : (g.preKo p i).koTriggered = true := by
      rw [hkt, beq_iff_eq]
      exact hcond
    rw [Game.applyKo_ko hk hh]
    apply Game.ext'
    · exact Game.preKo_size g p i
    · exact Game.preKo_turn g p i
    · rfl
    · rfl
  · intro hcond
    rw [Game.try_place_eq h1 h2]
    have hk : (g.preKo p i).koTriggered = false := by
      rw [hkt]
      rw [beq_eq_false_iff_ne]
      exact hcond
    rw [Game.applyKo_not hk]
    apply Game.ext'
    · exact Game.preKo_size g p i
    · show -(g.preKo p i).turn = -g.turn
      rw [Game.preKo_turn]
    · rfl
    · exact hh

/-- Claim C3 witness: a crafted 1x1 position whose previous-move snapshot
board equals the post-resolution board; the placement is fully rolled
back. -/
theorem C3_witness :
    (Game.mk 1 .White ⟨[none], ⟨0, 0⟩⟩ [⟨[none], ⟨3, 7⟩⟩]).try_place_stone
        ⟨0, 0⟩ =
      Game.mk 1 .White ⟨[none], ⟨0, 0⟩⟩ [⟨[none], ⟨3, 7⟩⟩] :=
  (C3_ko_rule (Game.mk 1 .White ⟨[none], ⟨0, 0⟩⟩ [⟨[none], ⟨3, 7⟩⟩])
    ⟨0, 0⟩ 0 (by decide) (by decide)).1 (by decide)

/-- Claim C2 counterexample: on a 1x1 board White's placement is a true
suicide (no captures, zero liberties); the stone is removed, but the tally
credited is White's own counter — the removed group's color — not the
opponent Black's counter as the claim states. -/
theorem C2_counterexample :
    ((Game.new 1).try_place_stone ⟨0, 0⟩).stone_at ⟨0, 0⟩ = none ∧
    (Game.new 1).turn = .White ∧
    ((Game.new 1).try_place_stone ⟨0, 0⟩).state.captures.get .Black = 0 ∧
    ((Game.new 1).try_place_stone ⟨0, 0⟩).state.captures.get .White = 1 := by
  decide

/-- Claim C2 as amended: for a valid empty target on a well-formed board,
when no adjacent opponent group is captured and the mover's own resulting
group has zero liberties (true suicide), try_place_stone removes the
mover's entire placed group from the board and adds its size to the tally
stored under the mover's own color — the removed group's color — leaving
the opponent's tally unchanged (absent a ko rollback). -/
theorem C2_suicide_removes_own_group (g : Game) (p : Pos) (i : Nat)
    (hlen : g.state.board.length = g.size * g.size)
    (h1 : p.index g.size = some i) (h2 : g.has_stone_at p = false)
    (hnoopp : ∀ np ∈ p.neighbors g.size,
      ((g.pushHistory).setStone i).stone_at np = some (-g.turn) →
      ¬ ((g.pushHistory).setStone i).groupNoLiberties (-g.turn) np)
    (hself : ((g.pushHistory).setStone i).groupNoLiberties g.turn p)
    (hko : (g.preKo p i).koTriggered = false) :
    (∀ q, ((g.pushHistory).setStone i).inGroup g.turn p q →
      (g.try_place_stone p).stone_at q = none) ∧
    (g.try_place_stone p).state.captures.get g.turn =
      g.state.captures.get g.turn +
        Set.ncard {q | ((g.pushHistory).setStone i).inGroup g.turn p q} ∧
    (g.try_place_stone p).state.captures.get (-g.turn) =
      g.state.captures.get (-g.turn) := by
  have hlt : i < g.state.board.length := by
    rw [hlen]
    exact Pos.index_lt h1
  have hstonep : ((g.pushHistory).setStone i).stone_at p = some g.turn :=
    Game.pushSet_stone_at_self h1 hlt
  have hres_id : ((g.pushHistory).setStone i).resolveList
      (p.neighbors g.size) = (g.pushHistory).setStone i :=
    Game.resolveList_id_of_no_captures (p.neighbors g.size)
      ((g.pushHistory).setStone i) hnoopp
  have hpre : g.preKo p i =
      ((g.pushHistory).setStone i).remove_if_surrounded p := by
    rw [Game.preKo_unfold, hres_id]
  obtain ⟨lrem, his⟩ := Game.is_surrounded_complete hstonep hself
  obtain ⟨hst, hiff, hnd, hnl⟩ := Game.is_surrounded_some_spec his
  have htp : g.try_place_stone p = Game.mk (g.preKo p i).size (-(g.preKo p i).turn)
      (g.preKo p i).state (g.preKo p i).history := by
    rw [Game.try_place_eq h1 h2, Game.applyKo_not hko]
  have hcapeq : (g.preKo p i).state.captures =
      g.state.captures.add g.turn lrem.length := by
    rw [hpre, Game.remove_if_surrounded_eq_some his]
    rfl
  refine ⟨?_, ?_, ?_⟩
  · intro q hq
    have hrm : (((g.pushHistory).setStone i).remove_if_surrounded p).stone_at
        q = none :=
      Game.remove_stone_at_mem his ((hiff q).mpr hq)
    rw [htp, Game.stone_at_withTurn, hpre]
    exact hrm
  · rw [htp]
    show (g.preKo p i).state.captures.get g.turn = _
    rw [hcapeq, Captures.get_add_self]
    congr 1
    rw [ncard_of_list hnd hiff]
  · rw [htp]
    show (g.preKo p i).state.captures.get (-g.turn) = _
    rw [hcapeq, Captures.get_add_other g.state.captures (Stone.neg_ne g.turn)]

/-- Claim C2 witness: the 1x1 suicide instantiates the amended suicide
theorem; the placed stone is removed. -/
theorem C2_witness :
    ((Game.new 1).try_place_stone ⟨0, 0⟩).stone_at ⟨0, 0⟩ = none :=
  (C2_suicide_removes_own_group (Game.new 1) ⟨0, 0⟩ 0
    (by decide) (by decide) (by decide)
    (by
      intro np hnp
      rw [show Pos.neighbors ⟨0, 0⟩ (Game.new 1).size = [] from by decide]
        at hnp
      exact absurd hnp (List.not_mem_nil np))
    (Game.groupNoLiberties_check (by decide))
    (by decide)).1 ⟨0, 0⟩ Relation.ReflTransGen.refl

/-- Claim C7: opponent groups are resolved before the mover's own group,
so a placement that captures an adjacent liberty-free opponent group is
never treated as suicide: absent a ko rollback, the mover's stone is still
on the board at the placed position after try_place_stone (stated for
i32-representable sizes on a well-formed board). -/
theorem C7_self_liberty_via_capture (g : Game) (p : Pos) (i : Nat)
    (np0 : Pos) (h0 : g.size < 2147483648)
    (hlen : g.state.board.length = g.size * g.size)
    (h1 : p.index g.size = some i) (h2 : g.has_stone_at p = false)
    (hnp : np0 ∈ p.neighbors g.size)
    (hstone : ((g.pushHistory).setStone i).stone_at np0 = some (-g.turn))
    (hnl : ((g.pushHistory).setStone i).groupNoLiberties (-g.turn) np0)
    (hko : (g.preKo p i).koTriggered = false) :
    (g.try_place_stone p).stone_at p = some g.turn := by
  have hlt : i < g.state.board.length := by
    rw [hlen]
    exact Pos.index_lt h1
  have hstonep : ((g.pushHistory).setStone i).stone_at p = some g.turn :=
    Game.pushSet_stone_at_self h1 hlt
  have hrm : ∀ q, ((g.pushHistory).setStone i).inGroup (-g.turn) np0 q →
      (((g.pushHistory).setStone i).resolveList
        (p.neighbors g.size)).stone_at q = none :=
    Game.resolveList_removes (p.neighbors g.size)
      ((g.pushHistory).setStone i)
      (fun q => ((g.pushHistory).setStone i).inGroup (-g.turn) np0 q)
      np0 h0 hnp (Or.inr ⟨hstone, hnl, fun q => Iff.rfl⟩)
  have hnp0_empty : (((g.pushHistory).setStone i).resolveList
      (p.neighbors g.size)).stone_at np0 = none :=
    hrm np0 (Game.inGroup_refl _ _ _)
  have hp_pres : (((g.pushHistory).setStone i).resolveList
      (p.neighbors g.size)).stone_at p = some g.turn := by
    apply Game.resolveList_othercolor (p.neighbors g.size)
      ((g.pushHistory).setStone i) hstonep
    exact (Stone.neg_ne g.turn).symm
  have hszR : (((g.pushHistory).setStone i).resolveList
      (p.neighbors g.size)).size = g.size :=
    Game.resolveList_size _ _
  have hself_none : (((g.pushHistory).setStone i).resolveList
      (p.neighbors g.size)).is_surrounded p = none := by
    cases his2 : (((g.pushHistory).setStone i).resolveList
        (p.neighbors g.size)).is_surrounded p with
    | none => rfl
    | some v =>
      cases v with
      | mk c2 l2 =>
        exfalso
        obtain ⟨hst2, hiff2, hnd2, hnl2⟩ := Game.is_surrounded_some_spec his2
        have hnp' : np0 ∈ p.neighbors (((g.pushHistory).setStone i).resolveList
            (p.neighbors g.size)).size := by
          rw [hszR]
          exact hnp
        have := hnl2 p (Game.inGroup_refl _ _ _) np0 hnp'
        rw [Game.has_stone_at_true_iff] at this
        exact this hnp0_empty
  have hpre : g.preKo p i = ((g.pushHistory).setStone i).resolveList
      (p.neighbors g.size) := by
    rw [Game.preKo_unfold]
    exact Game.remove_if_surrounded_eq_none hself_none
  rw [Game.try_place_eq h1 h2, Game.applyKo_not hko,
    Game.stone_at_withTurn, hpre]
  exact hp_pres

/-- Claim C7 witness: White at (1,1) of a 2x2 board captures the black
stone at (1,0) and therefore keeps its own stone on the board. -/
theorem C7_witness :
    ((Game.mk 2 .White ⟨[some .White, some .Black, none, none], ⟨0, 0⟩⟩
      []).try_place_stone ⟨1, 1⟩).stone_at ⟨1, 1⟩ = some .White :=
  C7_self_liberty_via_capture
    (Game.mk 2 .White ⟨[some .White, some .Black, none, none], ⟨0, 0⟩⟩ [])
    ⟨1, 1⟩ 3 ⟨1, 0⟩ (by decide) (by decide) (by decide) (by decide)
    (by decide) (by decide) (Game.groupNoLiberties_check (by decide))
    (by decide)

/-- Claim C1 counterexample: White at (1,1) of a 2x2 board fully encloses
the single black stone at (1,0); the stone is removed, but the tally that
increases by 1 is the one stored under Black — the captured color — while
the mover White's tally stays 0, contradicting the claim that the mover's
tally increases. -/
theorem C1_counterexample :
    ((Game.mk 2 .White ⟨[some .White, some .Black, none, none], ⟨0, 0⟩⟩
      []).try_place_stone ⟨1, 1⟩).stone_at ⟨1, 0⟩ = none ∧
    ((Game.mk 2 .White ⟨[some .White, some .Black, none, none], ⟨0, 0⟩⟩
      []).try_place_stone ⟨1, 1⟩).state.captures.get .White = 0 ∧
    ((Game.mk 2 .White ⟨[some .White, some .Black, none, none], ⟨0, 0⟩⟩
      []).try_place_stone ⟨1, 1⟩).state.captures.get .Black = 1 := by
  decide

/-- Claim C1 as amended: for a valid empty target on a well-formed board
of i32-representable size and any orthogonal neighbor np0 whose opponent
group has zero liberties after the placement, try_place_stone removes every
stone of that group from the board — this holds for each surrounded
adjacent group separately, so cascading captures of several disconnected
groups are all removed — and, when that group is moreover the only captured
one, the tally stored under the captured color (the opponent, not the
mover) increases by exactly the group's size (absent a ko rollback). -/
theorem C1_capture_removes_and_tallies (g : Game) (p : Pos) (i : Nat)
    (np0 : Pos) (h0 : g.size < 2147483648)
    (hlen : g.state.board.length = g.size * g.size)
    (h1 : p.index g.size = some i) (h2 : g.has_stone_at p = false)
    (hnp : np0 ∈ p.neighbors g.size)
    (hstone : ((g.pushHistory).setStone i).stone_at np0 = some (-g.turn))
    (hnl : ((g.pushHistory).setStone i).groupNoLiberties (-g.turn) np0)
    (hko : (g.preKo p i).koTriggered = false) :
    (∀ q, ((g.pushHistory).setStone i).inGroup (-g.turn) np0 q →
      (g.try_place_stone p).stone_at q = none) ∧
    ((∀ np ∈ p.neighbors g.size,
        ((g.pushHistory).setStone i).stone_at np = some (-g.turn) →
        ¬ ((g.pushHistory).setStone i).inGroup (-g.turn) np0 np →
        ¬ ((g.pushHistory).setStone i).groupNoLiberties (-g.turn) np) →
      (g.try_place_stone p).state.captures.get (-g.turn) =
        g.state.captures.get (-g.turn) +
          Set.ncard {q |
            ((g.pushHistory).setStone i).inGroup (-g.turn) np0 q}) := by
  have hlt : i < g.state.board.length := by
    rw [hlen]
    exact Pos.index_lt h1
  have hstonep : ((g.pushHistory).setStone i).stone_at p = some g.turn :=
    Game.pushSet_stone_at_self h1 hlt
  have htp : g.try_place_stone p = Game.mk (g.preKo p i).size
      (-(g.preKo p i).turn) (g.preKo p i).state (g.preKo p i).history := by
    rw [Game.try_place_eq h1 h2, Game.applyKo_not hko]
  constructor
  · intro q hq
    have hrmA := Game.resolveList_removes (p.neighbors g.size)
      ((g.pushHistory).setStone i)
      (fun r => ((g.pushHistory).setStone i).inGroup (-g.turn) np0 r)
      np0 h0 hnp (Or.inr ⟨hstone, hnl, fun r => Iff.rfl⟩) q hq
    rw [htp, Game.stone_at_withTurn, Game.preKo_unfold]
    exact Game.remove_none_stable hrmA
  · intro honly
    obtain ⟨lrem, hnd, hiff, hcap, hrm⟩ :=
      Game.resolveList_single_capture (p.neighbors g.size)
        ((g.pushHistory).setStone i) np0 h0 hnp hstone hnl honly
    rw [Game.pushSet_turn] at hiff hcap hrm
    have hp_pres : (((g.pushHistory).setStone i).resolveList
        (p.neighbors g.size)).stone_at p = some g.turn := by
      apply Game.resolveList_othercolor (p.neighbors g.size)
        ((g.pushHistory).setStone i) hstonep
      exact (Stone.neg_ne g.turn).symm
    have hcapR : ((((g.pushHistory).setStone i).resolveList
          (p.neighbors g.size)).remove_if_surrounded p).state.captures.get
          (-g.turn) =
        (((g.pushHistory).setStone i).resolveList
          (p.neighbors g.size)).state.captures.get (-g.turn) := by
      cases his2 : (((g.pushHistory).setStone i).resolveList
          (p.neighbors g.size)).is_surrounded p with
      | none => rw [Game.remove_if_surrounded_eq_none his2]
      | some v =>
        cases v with
        | mk c2 l2 =>
          have hst2 := (Game.is_surrounded_some_spec his2).1
          rw [hp_pres] at hst2
          cases hst2
          rw [Game.remove_if_surrounded_eq_some his2]
          exact Captures.get_add_other _ (Stone.neg_ne g.turn) _
    rw [htp]
    show (g.preKo p i).state.captures.get (-g.turn) = _
    rw [Game.preKo_unfold, hcapR, hcap, Captures.get_add_self]
    congr 1
    rw [ncard_of_list hnd hiff]

/-- Claim C1 witness: the amended theorem instantiated at the concrete 2x2
capture; the enclosed black stone at (1,0) is removed, and with the
only-captured-group side condition discharged, Black's tally (the captured
color) increases by exactly 1 — the size of the singleton group. -/
theorem C1_witness :
    ((Game.mk 2 .White ⟨[some .White, some .Black, none, none], ⟨0, 0⟩⟩
      []).try_place_stone ⟨1, 1⟩).stone_at ⟨1, 0⟩ = none ∧
    ((Game.mk 2 .White ⟨[some .White, some .Black, none, none], ⟨0, 0⟩⟩
      []).try_place_stone ⟨1, 1⟩).state.captures.get .Black =
      0 + Set.ncard {q | (((Game.mk 2 .White
        ⟨[some .White, some .Black, none, none], ⟨0, 0⟩⟩
        []).pushHistory).setStone 3).inGroup .Black ⟨1, 0⟩ q} := by
  have hmain := C1_capture_removes_and_tallies
    (Game.mk 2 .White ⟨[some .White, some .Black, none, none], ⟨0, 0⟩⟩ [])
    ⟨1, 1⟩ 3 ⟨1, 0⟩ (by decide) (by decide) (by decide) (by decide)
    (by decide) (by decide) (Game.groupNoLiberties_check (by decide))
    (by decide)
  refine ⟨hmain.1 ⟨1, 0⟩ Relation.ReflTransGen.refl, ?_⟩
  exact hmain.2 (by
    intro np hnp hs hnin
    rw [show Pos.neighbors ⟨1, 1⟩
        (Game.mk 2 .White
          ⟨[some .White, some .Black, none, none], ⟨0, 0⟩⟩ []).size =
        [Pos.mk 0 1, Pos.mk 1 0] from by decide] at hnp
    rcases List.mem_cons.mp hnp with he | hnp'
    · subst he
      exact absurd hs (by decide)
    · rcases List.mem_cons.mp hnp' with he | hnp''
      · subst he
        exact absurd (Game.inGroup_refl _ _ _) hnin
      · exact absurd hnp'' (List.not_mem_nil np))

end Druidgo
